import Mathlib

/-!
# dynbuf: a growable byte buffer (`src/dynbuf.h`)

A shallow embedding of the C header `dynbuf.h` and proofs about it.

Modelling conventions

* `size_t` is a natural number reduced modulo `SIZE_MOD = 2^64` after every
  arithmetic operation the source performs on it.
* A heap block is a `List Nat` of byte values; the length of the list is the
  allocated size of the block.  A `const char *` argument is an
  `Option (List Nat)`: `none` is the null pointer, `some s` points to the
  object whose bytes are `s`.
* The buffer itself is passed by value, so `assert(buf)` and `if (buf)` on the
  pointer to the struct always succeed.
* Two ways of not returning are kept apart: `Fault.abort` (the `abort()` of the
  `x*alloc` wrappers, a failed `assert`) and `Fault.undefined` (an access
  outside a block, `strlen` of a null pointer, a missing variadic argument).
* The allocator is a parameter `Alloc`: it grants a request of `n` bytes
  exactly when `0 < n ≤ limit`, and the indeterminate bytes of a grown block
  are given by `fresh`.
* A formatter call is given by its outcome, an `Option (List Nat)`: the bytes
  it would print, or `none` for an encoding error.
* An open stream is a `FILE` value delivering the bytes of the file; the read
  loop of `dynbuf_readfile` carries a bound on its iterations and the results
  about it hold for every bound above the number of bytes left.
-/

namespace Dynbuf

/-- The number of values of `size_t` (64-bit). -/
def SIZE_MOD : Nat := 18446744073709551616

/-- The largest `int`. -/
def INT_MAX : Nat := 2147483647

/-- The success value, `#define OK 1`. -/
def OK : Int := 1

/-- The failure value, `#define ERR 0`. -/
def ERR : Int := 0

/-- Ways in which a call does not return to its caller. -/
inductive Fault where
  | abort
  | undefined
deriving DecidableEq, Repr

/-- The heap allocator, as seen by the buffer: the largest request it grants (a
`size_t` value, as every request is) and the content of memory it hands out
uninitialised. -/
structure Alloc where
  limit : Nat
  fresh : Nat → Nat
  limit_lt : limit < SIZE_MOD

/-- The C struct `struct dynbuf { char *data; size_t len, cap; }`; `data` is the
heap block the pointer refers to. -/
structure dynbuf where
  data : List Nat
  len : Nat
  cap : Nat
deriving DecidableEq, Repr

/-- A live buffer: the storage block has exactly `cap` bytes, and both counters
are `size_t` values. -/
structure live (buf : dynbuf) : Prop where
  block : buf.data.length = buf.cap
  len_rng : buf.len < SIZE_MOD
  cap_rng : buf.cap < SIZE_MOD

/-- The wrapper `xrealloc`: `realloc`, and `abort()` when it yields no block, which is
the case for a request the allocator refuses and for a request of 0 bytes (the block is
freed and a null pointer returned).  The first `min old size` bytes are kept, the others
are indeterminate. -/
def xrealloc (A : Alloc) (x : List Nat) (size : Nat) : Except Fault (List Nat) :=
  if size = 0 ∨ A.limit < size then .error .abort
  else .ok (x.take size ++ (List.range (size - x.length)).map (fun i => A.fresh (x.length + i)))

/-- The wrapper `xcalloc(count, 1)`: a zeroed block, `abort()` when refused. -/
def xcalloc (A : Alloc) (count : Nat) : Except Fault (List Nat) :=
  if A.limit < count then .error .abort else .ok (List.replicate count 0)

/-- The library call `memcpy(dst + off, src, n)`. -/
def memcpy (dst : List Nat) (off : Nat) (src : List Nat) (n : Nat) : Except Fault (List Nat) :=
  if src.length < n ∨ dst.length < off + n then .error .undefined
  else .ok (dst.take off ++ src.take n ++ dst.drop (off + n))

/-- The library call `memset(dst, c, n)`. -/
def memset (dst : List Nat) (c n : Nat) : Except Fault (List Nat) :=
  if dst.length < n then .error .undefined
  else .ok (List.replicate n c ++ dst.drop n)

/-- The assignment `dst[i] = c`. -/
def store (dst : List Nat) (i c : Nat) : Except Fault (List Nat) :=
  if i < dst.length then .ok (dst.set i c) else .error .undefined

/-- The library call `strlen`: the offset of the first zero byte of the object. -/
def strlen : List Nat → Option Nat
  | [] => none
  | c :: t => if c = 0 then some 0 else (strlen t).map (· + 1)

/-- The library call `tolower` in the "C" locale. -/
def tolower (c : Nat) : Nat :=
  if 65 ≤ c ∧ c ≤ 90 then c + 32 else c

/-- The function `dynbuf_init` (lines 97-103). -/
def dynbuf_init (A : Alloc) (initial_cap : Nat) : Except Fault dynbuf :=
  match xcalloc A initial_cap with
  | .error e => .error e
  | .ok d => .ok { data := d, len := 0, cap := initial_cap }

/-- The function `dynbuf_clear` (lines 83-88). -/
def dynbuf_clear (buf : dynbuf) : Except Fault dynbuf :=
  match memset buf.data 0 buf.len with
  | .error e => .error e
  | .ok d => .ok { buf with data := d, len := 0 }

/-- The function `dynbuf_soft_clear` (lines 90-95). -/
def dynbuf_soft_clear (buf : dynbuf) : Except Fault dynbuf :=
  match store buf.data 0 0 with
  | .error e => .error e
  | .ok d => .ok { buf with data := d, len := 0 }

/-- The function `dynbuf_resize` (lines 117-122). -/
def dynbuf_resize (A : Alloc) (buf : dynbuf) (new_size : Nat) : Except Fault dynbuf :=
  if new_size = 0 then .error .abort
  else
    match xrealloc A buf.data new_size with
    | .error e => .error e
    | .ok d => .ok { buf with cap := new_size, data := d }

/-- The function `dynbuf_reserve` (lines 112-115). -/
def dynbuf_reserve (A : Alloc) (buf : dynbuf) (size : Nat) : Except Fault dynbuf :=
  if buf.cap < size then dynbuf_resize A buf size else .ok buf

/-- The function `dynbuf_append` (lines 124-135). -/
def dynbuf_append (A : Alloc) (buf : dynbuf) (str : Option (List Nat)) (len : Nat) :
    Except Fault dynbuf :=
  match str with
  | none => .ok buf
  | some s =>
    if len = 0 then .ok buf
    else
      let grown : Except Fault dynbuf :=
        if (buf.len + len) % SIZE_MOD > buf.cap then
          match xrealloc A buf.data ((buf.cap + len) % SIZE_MOD) with
          | .error e => .error e
          | .ok d => .ok { buf with cap := (buf.cap + len) % SIZE_MOD, data := d }
        else .ok buf
      match grown with
      | .error e => .error e
      | .ok b =>
        match memcpy b.data b.len s len with
        | .error e => .error e
        | .ok d => .ok { b with data := d, len := (b.len + len) % SIZE_MOD }

/-- The function `dynbuf_append_char` (lines 137-144). -/
def dynbuf_append_char (A : Alloc) (buf : dynbuf) (c : Nat) : Except Fault dynbuf :=
  let grown : Except Fault dynbuf :=
    if (buf.len + 1) % SIZE_MOD > buf.cap then
      match xrealloc A buf.data ((buf.cap + 1) % SIZE_MOD) with
      | .error e => .error e
      | .ok d => .ok { buf with cap := (buf.cap + 1) % SIZE_MOD, data := d }
    else .ok buf
  match grown with
  | .error e => .error e
  | .ok b =>
    match store b.data b.len c with
    | .error e => .error e
    | .ok d => .ok { b with data := d, len := (b.len + 1) % SIZE_MOD }

/-- The function `dynbuf_terminate` (lines 146-149). -/
def dynbuf_terminate (A : Alloc) (buf : dynbuf) : Except Fault dynbuf :=
  dynbuf_append_char A buf 0

/-- The function `dynbuf_append_string` (lines 152-155). -/
def dynbuf_append_string (A : Alloc) (buf : dynbuf) (str : Option (List Nat)) :
    Except Fault dynbuf :=
  match str with
  | none => .ok buf
  | some s =>
    match strlen s with
    | none => .error .undefined
    | some l => dynbuf_append A buf (some s) l

/-- The loop of `dynbuf_append_strings` (lines 165-168): `n` iterations left, `args`
the variadic arguments not yet consumed. -/
def append_strings_loop (A : Alloc) : Nat → List (Option (List Nat)) → dynbuf → Except Fault dynbuf
  | 0, _, buf => .ok buf
  | _ + 1, [], _ => .error .undefined
  | _ + 1, none :: _, _ => .error .undefined
  | n + 1, some s :: rest, buf =>
    match strlen s with
    | none => .error .undefined
    | some l =>
      match dynbuf_append A buf (some s) l with
      | .error e => .error e
      | .ok b => append_strings_loop A n rest b

/-- The function `dynbuf_append_strings` (lines 157-171); `count` is an `int`. -/
def dynbuf_append_strings (A : Alloc) (buf : dynbuf) (count : Int)
    (args : List (Option (List Nat))) : Except Fault dynbuf :=
  append_strings_loop A count.toNat args buf

/-- The value `vsnprintf` returns for a formatting whose outcome is `out`: `none` is
an encoding error, and an output longer than `INT_MAX` cannot be reported. -/
def fmt_ret (out : Option (List Nat)) : Int :=
  match out with
  | none => -1
  | some s => if s.length ≤ INT_MAX then (s.length : Int) else -1

/-- The library call `vsnprintf(dst + off, space, fmt, va)` for a formatting whose
outcome is `out`: at most `space - 1` bytes of the output and a terminator are
written, nothing when `space` is 0 or the formatting fails. -/
def vsnprintf (dst : List Nat) (off space : Nat) (out : Option (List Nat)) :
    Except Fault (List Nat × Int) :=
  let written : List Nat :=
    match out with
    | none => []
    | some s => if space = 0 then [] else s.take (space - 1) ++ [0]
  if dst.length < off + written.length then .error .undefined
  else .ok (dst.take off ++ written ++ dst.drop (off + written.length), fmt_ret out)

/-- The function `dynbuf_append_fmt` (lines 199-229); `out1` and `out2` are the outcomes
of its two formatter calls. -/
def dynbuf_append_fmt (A : Alloc) (buf : dynbuf) (out1 out2 : Option (List Nat)) :
    Except Fault (Int × dynbuf) :=
  let n := fmt_ret out1
  if n < 0 then .ok (ERR, buf)
  else
    let size := (n.toNat + 1) % SIZE_MOD
    let room := (buf.cap + SIZE_MOD - buf.len) % SIZE_MOD
    let grown : Except Fault dynbuf :=
      if size > room then
        let cap := (buf.cap + (size + SIZE_MOD - room) % SIZE_MOD) % SIZE_MOD
        match xrealloc A buf.data ((cap * 1) % SIZE_MOD) with
        | .error e => .error e
        | .ok d => .ok { buf with cap := cap, data := d }
      else .ok buf
    match grown with
    | .error e => .error e
    | .ok b =>
      match vsnprintf b.data b.len ((b.cap + SIZE_MOD - b.len) % SIZE_MOD) out2 with
      | .error e => .error e
      | .ok (d, n2) =>
        if n2 < 0 then .ok (ERR, { b with data := d })
        else .ok (OK, { b with data := d, len := (b.len + n2.toNat) % SIZE_MOD })

/-- The loop of `dynbuf_tolower` (lines 233-234): `n` iterations left, at index `i`. -/
def tolower_loop : Nat → Nat → List Nat → Except Fault (List Nat)
  | 0, _, d => .ok d
  | n + 1, i, d =>
    match d[i]? with
    | none => .error .undefined
    | some c => tolower_loop n (i + 1) (d.set i (tolower c))

/-- The function `dynbuf_tolower` (lines 231-235). -/
def dynbuf_tolower (buf : dynbuf) : Except Fault dynbuf :=
  match tolower_loop buf.len 0 buf.data with
  | .error e => .error e
  | .ok d => .ok { buf with data := d }

/-! ## Public operations as data -/

/-- The total length of the first `n` strings of `args`; `none` when one of them is
missing, null or unterminated. -/
def strings_total : Nat → List (Option (List Nat)) → Option Nat
  | 0, _ => some 0
  | _ + 1, [] => none
  | _ + 1, none :: _ => none
  | n + 1, some s :: rest =>
    match strlen s, strings_total n rest with
    | some l, some t => some (l + t)
    | _, _ => none

/-- A call of one public operation on a live buffer, with its arguments.  For
`append_fmt` the argument is the outcome of formatting `fmt` with the variadic arguments,
which both formatter calls of the function compute. -/
inductive Op where
  | clear
  | soft_clear
  | reserve (size : Nat)
  | resize (new_size : Nat)
  | append (str : Option (List Nat)) (len : Nat)
  | append_char (c : Nat)
  | terminate
  | append_string (str : Option (List Nat))
  | append_strings (count : Int) (args : List (Option (List Nat)))
  | append_fmt (out : Option (List Nat))
  | tolower

/-- The buffer a call leaves behind. -/
def run (A : Alloc) (buf : dynbuf) : Op → Except Fault dynbuf
  | .clear => dynbuf_clear buf
  | .soft_clear => dynbuf_soft_clear buf
  | .reserve size => dynbuf_reserve A buf size
  | .resize new_size => dynbuf_resize A buf new_size
  | .append str len => dynbuf_append A buf str len
  | .append_char c => dynbuf_append_char A buf c
  | .terminate => dynbuf_terminate A buf
  | .append_string str => dynbuf_append_string A buf str
  | .append_strings count args => dynbuf_append_strings A buf count args
  | .append_fmt out =>
    match dynbuf_append_fmt A buf out out with
    | .error e => .error e
    | .ok (_, b) => .ok b
  | .tolower => dynbuf_tolower buf

/-- The arguments of a call are valid objects and the allocator can grant the largest
block the call may ask for. -/
def ready (A : Alloc) (buf : dynbuf) : Op → Prop
  | .clear => True
  | .soft_clear => 1 ≤ buf.cap
  | .reserve size => size ≤ buf.cap ∨ size ≤ A.limit
  | .resize new_size => 0 < new_size ∧ new_size ≤ A.limit
  | .append str len => ∀ s, str = some s → len ≤ s.length ∧ buf.cap + len ≤ A.limit
  | .append_char _ => buf.cap + 1 ≤ A.limit
  | .terminate => buf.cap + 1 ≤ A.limit
  | .append_string str => ∀ s, str = some s → ∃ l, strlen s = some l ∧ buf.cap + l ≤ A.limit
  | .append_strings count args =>
    ∃ t, strings_total count.toNat args = some t ∧ buf.cap + t ≤ A.limit
  | .append_fmt out => ∀ s, out = some s → buf.cap + s.length + 1 ≤ A.limit
  | .tolower => True

/-- The function `dynbuf_is_string` (lines 63-66); `len - 1` is a `size_t` subtraction. -/
def dynbuf_is_string (buf : dynbuf) : Except Fault Bool :=
  match buf.data[(buf.len + SIZE_MOD - 1) % SIZE_MOD]? with
  | none => .error .undefined
  | some c => .ok (c == 0)

/-! ## File loading -/

/-- An open stream: the bytes of the file, the read position, the offset at which the
device fails (if it does) and the error indicator that `ferror` reports. -/
structure FILE where
  content : List Nat
  pos : Nat
  fail_at : Option Nat
  error : Bool

/-- The library call `fread(buf, 1, n, f)`: the bytes delivered and the stream afterwards.
Fewer than `n` bytes are delivered at the end of the file or at the failing offset; the
latter sets the error indicator. -/
def fread (f : FILE) (n : Nat) : List Nat × FILE :=
  let readable : List Nat :=
    match f.fail_at with
    | none => f.content
    | some k => f.content.take k
  let got := (readable.drop f.pos).take n
  let failed : Bool :=
    match f.fail_at with
    | none => false
    | some k => decide (got.length < n ∧ k < f.content.length)
  (got, { f with pos := f.pos + got.length, error := f.error || failed })

/-- The loop of `dynbuf_readfile` (lines 185-186): `buf` is the local array of 1024 bytes.
The first argument bounds the number of iterations; `none` means the bound was too small
to reach the end of the loop. -/
def readfile_loop (A : Alloc) :
    Nat → FILE → List Nat → dynbuf → Option (Except Fault (dynbuf × FILE))
  | 0, _, _, _ => none
  | fuel + 1, f, buf, dst =>
    let r := fread f 1024
    let nread := r.1.length
    let buf1 := r.1 ++ buf.drop nread
    if nread ≠ 0 ∧ r.2.error = false then
      match dynbuf_append A dst (some buf1) nread with
      | .error e => some (.error e)
      | .ok d => readfile_loop A fuel r.2 buf1 d
    else some (.ok (dst, r.2))

/-- The function `dynbuf_readfile` (lines 173-197); `file` is what `fopen` yields (`none`
when the file cannot be opened).  The local array starts with indeterminate content, which
is never read before `fread` has written it. -/
def dynbuf_readfile (A : Alloc) (dst : dynbuf) (file : Option FILE) (fuel : Nat) :
    Option (Except Fault (Int × dynbuf)) :=
  match file with
  | none => some (.ok (ERR, dst))
  | some f =>
    match readfile_loop A fuel f (List.replicate 1024 0) dst with
    | none => none
    | some (.error e) => some (.error e)
    | some (.ok (d, f1)) => if f1.error then some (.ok (ERR, d)) else some (.ok (OK, d))

/-- A file that has been opened and reads without error. -/
def good_file (content : List Nat) : FILE :=
  { content := content, pos := 0, fail_at := none, error := false }

/-! ## The library formatter on a few directives -/

/-- A variadic argument of a formatting call. -/
inductive FmtArg where
  | int (v : Int)
  | str (s : List Nat)

/-- The decimal digits of `n`, most significant first, in front of `acc`. -/
def decimal_digits : Nat → Nat → List Nat → List Nat
  | 0, _, acc => acc
  | fuel + 1, n, acc =>
    if n < 10 then (48 + n) :: acc
    else decimal_digits fuel (n / 10) ((48 + n % 10) :: acc)

/-- What `%d` prints. -/
def decimal (v : Int) : List Nat :=
  if v < 0 then 45 :: decimal_digits (v.natAbs + 1) v.natAbs []
  else decimal_digits (v.natAbs + 1) v.natAbs []

/-- The output of the library formatter for a format string with the directives `%d`,
`%s` and `%%` only; `none` for anything else, which is outside this model. -/
def vformat : List Nat → List FmtArg → Option (List Nat)
  | [], _ => some []
  | 37 :: 100 :: rest, .int v :: args => (vformat rest args).map (decimal v ++ ·)
  | 37 :: 115 :: rest, .str s :: args =>
    match strlen s with
    | none => none
    | some l => (vformat rest args).map (s.take l ++ ·)
  | 37 :: 37 :: rest, args => (vformat rest args).map (37 :: ·)
  | 37 :: _, _ => none
  | c :: rest, args => if c = 0 then some [] else (vformat rest args).map (c :: ·)

/-! ## Sequences of calls -/

/-- Calls of `dynbuf_append_string` on the strings of a list, one after the other, in
order. -/
def append_string_seq (A : Alloc) : dynbuf → List (List Nat) → Except Fault dynbuf
  | buf, [] => .ok buf
  | buf, s :: rest =>
    match dynbuf_append_string A buf (some s) with
    | .error e => .error e
    | .ok b => append_string_seq A b rest

/-- A finite sequence of calls, each on the buffer the previous one left. -/
def runs (A : Alloc) : dynbuf → List Op → Except Fault dynbuf
  | buf, [] => .ok buf
  | buf, op :: ops =>
    match run A buf op with
    | .error e => .error e
    | .ok b => runs A b ops

/-- The calls that only add bytes: `append`, `append_char`, `append_string`, `terminate`. -/
def adds : Op → Bool
  | .append _ _ => true
  | .append_char _ => true
  | .append_string _ => true
  | .terminate => true
  | _ => false

/-- The number of bytes an adding call asks to store; `none` when its arguments are not
valid objects or the call is not an adding one. -/
def demand : Op → Option Nat
  | .append none _ => some 0
  | .append (some s) len => if len ≤ s.length then some len else none
  | .append_char _ => some 1
  | .terminate => some 1
  | .append_string none => some 0
  | .append_string (some s) => strlen s
  | _ => none

/-- The bytes a sequence of adding calls asks to store. -/
def demands : List Op → Option Nat
  | [] => some 0
  | op :: ops =>
    match demand op, demands ops with
    | some n, some t => some (n + t)
    | _, _ => none

/-! ## Concrete inputs -/

/-- An allocator that grants up to 100 bytes and hands out zeroed memory. -/
def alloc100 : Alloc := ⟨100, fun _ => 0, by decide⟩

/-- A buffer of capacity 4 holding the two bytes `hi`. -/
def buf_hi : dynbuf := { data := [104, 105, 0, 0], len := 2, cap := 4 }

/-- A fresh buffer of capacity 4, as `dynbuf_init(buf, 4)` leaves it. -/
def buf_empty4 : dynbuf := { data := [0, 0, 0, 0], len := 0, cap := 4 }

/-- A full buffer of capacity 3 holding `abc`. -/
def buf_abc : dynbuf := { data := [97, 98, 99], len := 3, cap := 3 }

/-- A full buffer of capacity 2 holding `ab`. -/
def buf_ab : dynbuf := { data := [97, 98], len := 2, cap := 2 }

/-- A buffer of capacity 8 holding `ABC123`. -/
def buf_upper : dynbuf := { data := [65, 66, 67, 49, 50, 51, 90, 0], len := 6, cap := 8 }

/-- The C string `"hello"`. -/
def str_hello : List Nat := [104, 101, 108, 108, 111, 0]

/-- The C string `"world"`. -/
def str_world : List Nat := [119, 111, 114, 108, 100, 0]

/-- The bytes `helloworld`. -/
def bytes_helloworld : List Nat := [104, 101, 108, 108, 111, 119, 111, 114, 108, 100]

/-- The format string `"%d-%s"`. -/
def fmt_d_s : List Nat := [37, 100, 45, 37, 115, 0]

/-! ## Library calls -/

theorem limit_bound (A : Alloc) : A.limit < 18446744073709551616 := A.limit_lt

theorem xrealloc_ok (A : Alloc) (x : List Nat) (n : Nat) (h0 : 0 < n) (h : n ≤ A.limit) :
    xrealloc A x n =
      .ok (x.take n ++ (List.range (n - x.length)).map (fun i => A.fresh (x.length + i))) := by
  unfold xrealloc
  rw [if_neg]
  omega

theorem xrealloc_inv (A : Alloc) (x d : List Nat) (n : Nat) (h : xrealloc A x n = .ok d) :
    0 < n ∧ n ≤ A.limit ∧ d.length = n ∧ ∀ i, i < x.length → i < n → d[i]? = x[i]? := by
  unfold xrealloc at h
  split at h
  · exact absurd h (by simp)
  · rename_i hc
    have hd : d = x.take n ++ (List.range (n - x.length)).map (fun i => A.fresh (x.length + i)) := by
      injection h with h; exact h.symm
    subst hd
    refine ⟨by omega, by omega, ?_, ?_⟩
    · simp only [List.length_append, List.length_take, List.length_map, List.length_range]
      omega
    · intro i hi hn
      rw [List.getElem?_append_left (by simp only [List.length_take]; omega)]
      rw [List.getElem?_take_of_lt hn]

theorem memcpy_inv (dst src d : List Nat) (off n : Nat) (h : memcpy dst off src n = .ok d) :
    n ≤ src.length ∧ off + n ≤ dst.length ∧ d.length = dst.length ∧
      (∀ i, i < off → d[i]? = dst[i]?) ∧ (∀ i, i < n → d[off + i]? = src[i]?) ∧
      (∀ i, off + n ≤ i → d[i]? = dst[i]?) := by
  unfold memcpy at h
  split at h
  · exact absurd h (by simp)
  · rename_i hc
    have hd : d = dst.take off ++ src.take n ++ dst.drop (off + n) := by
      injection h with h; exact h.symm
    subst hd
    have h1 : n ≤ src.length := by omega
    have h2 : off + n ≤ dst.length := by omega
    have hl1 : (dst.take off).length = off := by simp only [List.length_take]; omega
    have hl2 : (src.take n).length = n := by simp only [List.length_take]; omega
    refine ⟨h1, h2, ?_, ?_, ?_, ?_⟩
    · simp only [List.length_append, List.length_drop, hl1, hl2]
      omega
    · intro i hi
      rw [List.append_assoc, List.getElem?_append_left (by omega)]
      rw [List.getElem?_take_of_lt hi]
    · intro i hi
      rw [List.getElem?_append_left (by simp only [List.length_append, hl1, hl2]; omega)]
      rw [List.getElem?_append_right (by omega), hl1]
      rw [show off + i - off = i by omega, List.getElem?_take_of_lt hi]
    · intro i hi
      rw [List.getElem?_append_right (by simp only [List.length_append, hl1, hl2]; omega)]
      simp only [List.length_append, hl1, hl2, List.getElem?_drop]
      congr 1
      omega

theorem memcpy_ok (dst src : List Nat) (off n : Nat) (h1 : n ≤ src.length)
    (h2 : off + n ≤ dst.length) :
    memcpy dst off src n = .ok (dst.take off ++ src.take n ++ dst.drop (off + n)) := by
  unfold memcpy
  rw [if_neg]
  omega

theorem store_eq_memcpy (d : List Nat) (i c : Nat) : store d i c = memcpy d i [c] 1 := by
  unfold store memcpy
  by_cases h : i < d.length
  · rw [if_pos h, if_neg (by simp only [List.length_singleton]; omega)]
    rw [List.set_eq_take_cons_drop c h]
    simp
  · rw [if_neg h, if_pos (by right; omega)]

theorem store_inv (dst d : List Nat) (i c : Nat) (h : store dst i c = .ok d) :
    i < dst.length ∧ d = dst.set i c := by
  unfold store at h
  split at h
  · rename_i hi
    injection h with h
    exact ⟨hi, h.symm⟩
  · exact absurd h (by simp)

/-! ## Appending -/

/-- What a returning `dynbuf_append` of `n > 0` bytes has done to a live buffer. -/
theorem append_inv (A : Alloc) (buf b' : dynbuf) (s : List Nat) (n : Nat) (hn : n ≠ 0)
    (hlive : live buf) (h : dynbuf_append A buf (some s) n = .ok b') :
    buf.len ≤ buf.cap ∧ n ≤ s.length ∧ buf.len + n < SIZE_MOD ∧
      b'.len = buf.len + n ∧
      b'.cap = (if buf.cap < buf.len + n then buf.cap + n else buf.cap) ∧
      (buf.cap < buf.len + n → buf.cap + n ≤ A.limit) ∧
      live b' ∧
      (∀ i, i < buf.len → b'.data[i]? = buf.data[i]?) ∧
      (∀ i, i < n → b'.data[buf.len + i]? = s[i]?) := by
  obtain ⟨hblock, hlen, hcap⟩ := hlive
  unfold dynbuf_append at h
  simp only [hn, if_false] at h
  by_cases hg : (buf.len + n) % SIZE_MOD > buf.cap
  · rw [if_pos hg] at h
    cases hx : xrealloc A buf.data ((buf.cap + n) % SIZE_MOD) with
    | error e => rw [hx] at h; exact absurd h (by simp)
    | ok d =>
      rw [hx] at h
      simp only at h
      cases hm : memcpy d buf.len s n with
      | error e => rw [hm] at h; exact absurd h (by simp)
      | ok d2 =>
        rw [hm] at h
        injection h with h
        subst h
        obtain ⟨x0, xl, xlen, xget⟩ := xrealloc_inv A _ _ _ hx
        obtain ⟨m1, m2, mlen, mlo, mmid, -⟩ := memcpy_inv _ _ _ _ _ hm
        simp only [SIZE_MOD] at *
        have hsum : buf.len + n < 18446744073709551616 := by omega
        have hcn : buf.cap + n < 18446744073709551616 := by omega
        have hmod : (buf.len + n) % 18446744073709551616 = buf.len + n := Nat.mod_eq_of_lt hsum
        have hmodc : (buf.cap + n) % 18446744073709551616 = buf.cap + n := Nat.mod_eq_of_lt hcn
        rw [hmod] at hg
        rw [hmodc] at xlen xl xget
        have hlt : buf.cap < buf.len + n := hg
        refine ⟨by omega, m1, hsum, hmod, ?_, fun _ => xl, ⟨?_, ?_, ?_⟩, ?_, mmid⟩
        · simp only [hmodc, if_pos hlt]
        · simp only [hmodc]; omega
        · simp only [hmod]; exact hsum
        · simp only [hmodc]; exact hcn
        · intro i hi
          rw [mlo i hi]
          exact xget i (by omega) (by omega)
  · rw [if_neg hg] at h
    simp only at h
    cases hm : memcpy buf.data buf.len s n with
    | error e => rw [hm] at h; exact absurd h (by simp)
    | ok d2 =>
      rw [hm] at h
      injection h with h
      subst h
      obtain ⟨m1, m2, mlen, mlo, mmid, -⟩ := memcpy_inv _ _ _ _ _ hm
      simp only [SIZE_MOD] at *
      have hsum : buf.len + n < 18446744073709551616 := by omega
      have hmod : (buf.len + n) % 18446744073709551616 = buf.len + n := Nat.mod_eq_of_lt hsum
      have hnlt : ¬ buf.cap < buf.len + n := by omega
      refine ⟨by omega, m1, hsum, hmod, ?_, fun hc => absurd hc hnlt, ⟨?_, ?_, hcap⟩, mlo, mmid⟩
      · simp only [if_neg hnlt]
      · simp only; omega
      · simp only [hmod]; exact hsum

/-- A `dynbuf_append` of `n > 0` bytes returns when the block it asks for is granted. -/
theorem append_returns (A : Alloc) (buf : dynbuf) (s : List Nat) (n : Nat) (hn : n ≠ 0)
    (hlive : live buf) (hle : buf.len ≤ buf.cap) (hs : n ≤ s.length)
    (hov : buf.len + n < SIZE_MOD)
    (hmem : buf.cap < buf.len + n → buf.cap + n ≤ A.limit) :
    ∃ b', dynbuf_append A buf (some s) n = .ok b' := by
  obtain ⟨hblock, hlen, hcap⟩ := hlive
  have hA := limit_bound A
  unfold dynbuf_append
  simp only [hn, if_false, SIZE_MOD] at *
  rw [Nat.mod_eq_of_lt hov]
  by_cases hg : buf.len + n > buf.cap
  · have hcn : buf.cap + n < 18446744073709551616 := by have := hmem hg; omega
    rw [if_pos hg, Nat.mod_eq_of_lt hcn]
    rw [xrealloc_ok A _ _ (by omega) (hmem hg)]
    simp only
    rw [memcpy_ok _ _ _ _ hs]
    · exact ⟨_, rfl⟩
    · simp only [List.length_append, List.length_take, List.length_map, List.length_range]
      omega
  · rw [if_neg hg]
    simp only
    rw [memcpy_ok _ _ _ _ hs (by omega)]
    exact ⟨_, rfl⟩

/-- The single-byte path is the general path at one byte. -/
theorem append_char_eq (A : Alloc) (buf : dynbuf) (c : Nat) :
    dynbuf_append_char A buf c = dynbuf_append A buf (some [c]) 1 := by
  unfold dynbuf_append_char dynbuf_append
  simp only [store_eq_memcpy, Nat.one_ne_zero, if_false]

/-- Every return of `dynbuf_append`, no-op or not, keeps a live buffer with `len ≤ cap`
live with `len ≤ cap`, and does not lower `cap`. -/
theorem append_keeps (A : Alloc) (buf b' : dynbuf) (str : Option (List Nat)) (n : Nat)
    (hlive : live buf) (hle : buf.len ≤ buf.cap) (h : dynbuf_append A buf str n = .ok b') :
    live b' ∧ b'.len ≤ b'.cap ∧ buf.cap ≤ b'.cap ∧ b'.cap ≤ buf.cap + n := by
  cases str with
  | none =>
    have : b' = buf := by
      have h2 : dynbuf_append A buf none n = .ok buf := rfl
      rw [h2] at h; injection h with h; exact h.symm
    subst this
    exact ⟨hlive, hle, le_refl _, by omega⟩
  | some s =>
    by_cases hn : n = 0
    · subst hn
      have : b' = buf := by
        have h2 : dynbuf_append A buf (some s) 0 = .ok buf := rfl
        rw [h2] at h; injection h with h; exact h.symm
      subst this
      exact ⟨hlive, hle, le_refl _, by omega⟩
    · obtain ⟨-, -, -, hl, hc, -, hlive', -, -⟩ := append_inv A buf b' s n hn hlive h
      refine ⟨hlive', ?_, ?_, ?_⟩ <;> split at hc <;> omega

theorem strlen_le (s : List Nat) (l : Nat) (h : strlen s = some l) : l < s.length := by
  induction s generalizing l with
  | nil => exact absurd h (by simp [strlen])
  | cons c t ih =>
    unfold strlen at h
    split at h
    · injection h with h
      subst h
      simp
    · cases ht : strlen t with
      | none => rw [ht] at h; exact absurd h (by simp)
      | some k =>
        rw [ht] at h
        simp only [Option.map_some'] at h
        injection h with h
        have := ih k ht
        simp only [List.length_cons]
        omega

theorem append_strings_loop_keeps (A : Alloc) (n : Nat) (args : List (Option (List Nat)))
    (buf b' : dynbuf) (hlive : live buf) (hle : buf.len ≤ buf.cap)
    (h : append_strings_loop A n args buf = .ok b') :
    live b' ∧ b'.len ≤ b'.cap ∧ buf.cap ≤ b'.cap := by
  induction n generalizing args buf with
  | zero =>
    unfold append_strings_loop at h
    injection h with h
    subst h
    exact ⟨hlive, hle, le_refl _⟩
  | succ k ih =>
    match args with
    | [] => exact absurd h (by simp [append_strings_loop])
    | none :: _ => exact absurd h (by simp [append_strings_loop])
    | some s :: rest =>
      unfold append_strings_loop at h
      cases hs : strlen s with
      | none => rw [hs] at h; exact absurd h (by simp)
      | some l =>
        rw [hs] at h
        simp only at h
        cases ha : dynbuf_append A buf (some s) l with
        | error e => rw [ha] at h; exact absurd h (by simp)
        | ok b =>
          rw [ha] at h
          obtain ⟨l1, l2, l3, -⟩ := append_keeps A buf b (some s) l hlive hle ha
          obtain ⟨r1, r2, r3⟩ := ih rest b l1 l2 h
          exact ⟨r1, r2, by omega⟩

theorem append_strings_loop_returns (A : Alloc) (n : Nat) (args : List (Option (List Nat)))
    (buf : dynbuf) (t : Nat) (hlive : live buf) (hle : buf.len ≤ buf.cap)
    (ht : strings_total n args = some t) (hmem : buf.cap + t ≤ A.limit) :
    ∃ b', append_strings_loop A n args buf = .ok b' := by
  induction n generalizing args buf t with
  | zero => exact ⟨buf, rfl⟩
  | succ k ih =>
    match args with
    | [] => exact absurd ht (by simp [strings_total])
    | none :: _ => exact absurd ht (by simp [strings_total])
    | some s :: rest =>
      unfold strings_total at ht
      cases hs : strlen s with
      | none => rw [hs] at ht; exact absurd ht (by simp)
      | some l =>
        cases hr : strings_total k rest with
        | none => rw [hs, hr] at ht; exact absurd ht (by simp)
        | some t' =>
          rw [hs, hr] at ht
          injection ht with ht
          have hA := limit_bound A
          have hsl := strlen_le s l hs
          have hret : ∃ b, dynbuf_append A buf (some s) l = .ok b := by
            by_cases hl : l = 0
            · subst hl; exact ⟨buf, rfl⟩
            · exact append_returns A buf s l hl hlive hle (by omega)
                (by simp only [SIZE_MOD]; omega) (fun _ => by omega)
          obtain ⟨b, hb⟩ := hret
          obtain ⟨l1, l2, -, l4⟩ := append_keeps A buf b (some s) l hlive hle hb
          obtain ⟨b', hb'⟩ := ih rest b t' l1 l2 hr (by omega)
          refine ⟨b', ?_⟩
          unfold append_strings_loop
          rw [hs]
          simp only
          rw [hb]
          exact hb'

/-! ## Formatting -/

theorem fmt_ret_nonneg (out : Option (List Nat)) (h : ¬ fmt_ret out < 0) :
    ∃ s, out = some s ∧ s.length ≤ INT_MAX ∧ fmt_ret out = (s.length : Int) := by
  cases out with
  | none => exact absurd (show fmt_ret none < 0 by simp [fmt_ret]) h
  | some s =>
    by_cases hs : s.length ≤ INT_MAX
    · exact ⟨s, rfl, hs, by simp [fmt_ret, hs]⟩
    · exact absurd (show fmt_ret (some s) < 0 by simp [fmt_ret, hs]) h

/-- With room for the whole output and its terminator, `vsnprintf` is a copy of the
terminated output. -/
theorem vsnprintf_room (dst s : List Nat) (off space : Nat) (h : s.length + 1 ≤ space) :
    vsnprintf dst off space (some s) =
      (memcpy dst off (s ++ [0]) (s.length + 1)).map (fun d => (d, fmt_ret (some s))) := by
  have h0 : space ≠ 0 := by omega
  have ht : s.take (space - 1) = s := List.take_of_length_le (by omega)
  have hl : (s ++ [0]).take (s.length + 1) = s ++ [0] :=
    List.take_of_length_le (by simp)
  unfold vsnprintf memcpy
  simp only [h0, if_false, ht, List.length_append, List.length_singleton, hl]
  by_cases hb : dst.length < off + (s.length + 1)
  · rw [if_pos hb, if_pos (Or.inr hb)]
    rfl
  · rw [if_neg hb, if_neg (by omega)]
    rfl

/-- What a returning `dynbuf_append_fmt` has done to a live buffer with `len ≤ cap` when
both formatter calls have the same outcome. -/
theorem append_fmt_inv (A : Alloc) (buf b' : dynbuf) (out : Option (List Nat)) (r : Int)
    (hlive : live buf) (hle : buf.len ≤ buf.cap)
    (h : dynbuf_append_fmt A buf out out = .ok (r, b')) :
    (fmt_ret out < 0 ∧ r = ERR ∧ b' = buf) ∨
      ∃ s, out = some s ∧ s.length ≤ INT_MAX ∧ r = OK ∧
        b'.len = buf.len + s.length ∧
        b'.cap = (if buf.cap < buf.len + s.length + 1 then buf.len + s.length + 1 else buf.cap) ∧
        (buf.cap < buf.len + s.length + 1 → buf.len + s.length + 1 ≤ A.limit) ∧
        live b' ∧
        (∀ i, i < buf.len → b'.data[i]? = buf.data[i]?) ∧
        (∀ i, i < s.length + 1 → b'.data[buf.len + i]? = (s ++ [0])[i]?) := by
  obtain ⟨hblock, hlen, hcap⟩ := hlive
  unfold dynbuf_append_fmt at h
  by_cases hneg : fmt_ret out < 0
  · simp only [hneg, if_true] at h
    injection h with h
    injection h with h1 h2
    exact Or.inl ⟨hneg, h1.symm, h2.symm⟩
  · right
    obtain ⟨s, hout, hs, hret⟩ := fmt_ret_nonneg out hneg
    subst hout
    have hnn : ¬ ((s.length : Int) < 0) := by omega
    simp only [hret, hnn, if_false, Int.toNat_ofNat] at h
    simp only [SIZE_MOD, INT_MAX] at *
    have hsize : (s.length + 1) % 18446744073709551616 = s.length + 1 :=
      Nat.mod_eq_of_lt (by omega)
    have hroom : (buf.cap + 18446744073709551616 - buf.len) % 18446744073709551616
        = buf.cap - buf.len := by omega
    rw [hsize, hroom] at h
    by_cases hg : s.length + 1 > buf.cap - buf.len
    · rw [if_pos hg] at h
      have hcap' : (buf.cap + (s.length + 1 + 18446744073709551616 - (buf.cap - buf.len))
          % 18446744073709551616) % 18446744073709551616
          = (buf.len + s.length + 1) % 18446744073709551616 := by omega
      rw [hcap', Nat.mul_one, Nat.mod_mod] at h
      cases hx : xrealloc A buf.data ((buf.len + s.length + 1) % 18446744073709551616) with
      | error e => rw [hx] at h; exact absurd h (by simp)
      | ok d =>
        rw [hx] at h
        simp only at h
        obtain ⟨x0, xl, xlen, xget⟩ := xrealloc_inv A _ _ _ hx
        have hspace : s.length + 1 ≤ ((buf.len + s.length + 1) % 18446744073709551616
            + 18446744073709551616 - buf.len) % 18446744073709551616 := by omega
        rw [vsnprintf_room _ _ _ _ hspace] at h
        cases hm : memcpy d buf.len (s ++ [0]) (s.length + 1) with
        | error e => rw [hm] at h; exact absurd h (by simp [Except.map])
        | ok d2 =>
          rw [hm] at h
          simp only [Except.map, hret, hnn, if_false, Int.toNat_ofNat] at h
          injection h with h
          injection h with h1 h2
          subst h2
          obtain ⟨-, m2, mlen, mlo, mmid, -⟩ := memcpy_inv _ _ _ _ _ hm
          have hnw : buf.len + s.length + 1 < 18446744073709551616 := by omega
          have hmodc : (buf.len + s.length + 1) % 18446744073709551616
              = buf.len + s.length + 1 := Nat.mod_eq_of_lt hnw
          have hmodl : (buf.len + s.length) % 18446744073709551616 = buf.len + s.length :=
            Nat.mod_eq_of_lt (by omega)
          rw [hmodc] at xl xlen xget
          have hlt : buf.cap < buf.len + s.length + 1 := by omega
          refine ⟨s, rfl, hs, h1.symm, hmodl, ?_, fun _ => xl, ⟨?_, ?_, ?_⟩, ?_, mmid⟩
          · simp only [hmodc, if_pos hlt]
          · simp only [hmodc]; omega
          · simp only [hmodl, SIZE_MOD]; omega
          · simp only [hmodc]; exact hnw
          · intro i hi
            rw [mlo i hi]
            exact xget i (by omega) (by omega)
    · rw [if_neg hg] at h
      simp only at h
      have hspace : s.length + 1 ≤ (buf.cap + 18446744073709551616 - buf.len)
          % 18446744073709551616 := by omega
      rw [vsnprintf_room _ _ _ _ hspace] at h
      cases hm : memcpy buf.data buf.len (s ++ [0]) (s.length + 1) with
      | error e => rw [hm] at h; exact absurd h (by simp [Except.map])
      | ok d2 =>
        rw [hm] at h
        simp only [Except.map, hret, hnn, if_false, Int.toNat_ofNat] at h
        injection h with h
        injection h with h1 h2
        subst h2
        obtain ⟨-, m2, mlen, mlo, mmid, -⟩ := memcpy_inv _ _ _ _ _ hm
        have hmodl : (buf.len + s.length) % 18446744073709551616 = buf.len + s.length :=
          Nat.mod_eq_of_lt (by omega)
        have hnlt : ¬ buf.cap < buf.len + s.length + 1 := by omega
        refine ⟨s, rfl, hs, h1.symm, hmodl, ?_, fun hc => absurd hc hnlt,
          ⟨?_, ?_, hcap⟩, mlo, mmid⟩
        · simp only [if_neg hnlt]
        · simp only; omega
        · simp only [hmodl, SIZE_MOD]; omega

/-- A `dynbuf_append_fmt` whose formatter calls agree returns when a needed block of
`len + n + 1` bytes is granted. -/
theorem append_fmt_returns (A : Alloc) (buf : dynbuf) (out : Option (List Nat))
    (hlive : live buf) (hle : buf.len ≤ buf.cap)
    (hmem : ∀ s, out = some s → buf.cap < buf.len + s.length + 1 →
      buf.len + s.length + 1 ≤ A.limit) :
    ∃ r b', dynbuf_append_fmt A buf out out = .ok (r, b') := by
  obtain ⟨hblock, hlen, hcap⟩ := hlive
  have hA := limit_bound A
  unfold dynbuf_append_fmt
  by_cases hneg : fmt_ret out < 0
  · simp only [hneg, if_true]
    exact ⟨_, _, rfl⟩
  · obtain ⟨s, hout, hs, hret⟩ := fmt_ret_nonneg out hneg
    subst hout
    have hnn : ¬ ((s.length : Int) < 0) := by omega
    simp only [hret, hnn, if_false, Int.toNat_ofNat]
    simp only [SIZE_MOD, INT_MAX] at *
    have hsize : (s.length + 1) % 18446744073709551616 = s.length + 1 :=
      Nat.mod_eq_of_lt (by omega)
    have hroom : (buf.cap + 18446744073709551616 - buf.len) % 18446744073709551616
        = buf.cap - buf.len := by omega
    rw [hsize, hroom]
    by_cases hg : s.length + 1 > buf.cap - buf.len
    · have hm := hmem s rfl (by omega)
      have hcap' : (buf.cap + (s.length + 1 + 18446744073709551616 - (buf.cap - buf.len))
          % 18446744073709551616) % 18446744073709551616 = buf.len + s.length + 1 := by omega
      rw [if_pos hg, hcap', Nat.mul_one, Nat.mod_eq_of_lt (by omega)]
      rw [xrealloc_ok A _ _ (by omega) hm]
      simp only
      have hspace : s.length + 1 ≤ (buf.len + s.length + 1 + 18446744073709551616 - buf.len)
          % 18446744073709551616 := by omega
      rw [vsnprintf_room _ _ _ _ hspace, memcpy_ok _ _ _ _ (by simp)]
      · simp only [Except.map, hret, hnn, if_false]
        exact ⟨_, _, rfl⟩
      · simp only [List.length_append, List.length_take, List.length_map, List.length_range]
        omega
    · rw [if_neg hg]
      simp only
      have hspace : s.length + 1 ≤ (buf.cap + 18446744073709551616 - buf.len)
          % 18446744073709551616 := by omega
      rw [vsnprintf_room _ _ _ _ hspace, memcpy_ok _ _ _ _ (by simp) (by omega)]
      simp only [Except.map, hret, hnn, if_false]
      exact ⟨_, _, rfl⟩

/-! ## Case folding -/

theorem tolower_loop_returns (n i : Nat) (d : List Nat) (h : i + n ≤ d.length) :
    ∃ d', tolower_loop n i d = .ok d' := by
  induction n generalizing i d with
  | zero => exact ⟨d, rfl⟩
  | succ k ih =>
    unfold tolower_loop
    rw [List.getElem?_eq_getElem (by omega)]
    exact ih (i + 1) _ (by simp only [List.length_set]; omega)

/-! ## The contract of `dynbuf_append` -/

/-- C1: for a live buffer with `len ≤ cap` and non-null data of `size > 0` bytes with
`len + size` representable, every return of `dynbuf_append` has `len` increased by
exactly `size`, the bytes at offsets `[old len, old len + size)` equal to the data, and
`len ≤ cap`; and the call does return whenever the allocator grants the grown block. -/
theorem dynbuf_append_spec (A : Alloc) (buf : dynbuf) (s : List Nat) (size : Nat)
    (hlive : live buf) (hle : buf.len ≤ buf.cap) (hpos : 0 < size) (hs : size ≤ s.length)
    (hov : buf.len + size < SIZE_MOD) :
    (∀ b', dynbuf_append A buf (some s) size = .ok b' →
        b'.len = buf.len + size ∧
        (∀ i, i < size → b'.data[buf.len + i]? = s[i]?) ∧
        b'.cap ≥ b'.len) ∧
      ((buf.cap < buf.len + size → buf.cap + size ≤ A.limit) →
        ∃ b', dynbuf_append A buf (some s) size = .ok b') := by
  constructor
  · intro b' h
    obtain ⟨-, -, -, hl, hc, -, -, -, hnew⟩ := append_inv A buf b' s size (by omega) hlive h
    refine ⟨hl, hnew, ?_⟩
    split at hc <;> omega
  · intro hmem
    exact append_returns A buf s size (by omega) hlive hle hs hov hmem

/-- Witness for C1: three bytes appended to `hi` in a buffer of capacity 4. -/
theorem dynbuf_append_spec_witness :
    ∃ b', dynbuf_append alloc100 buf_hi (some [33, 63, 46]) 3 = .ok b' ∧
      b'.len = 5 ∧ b'.data[2]? = some 33 ∧ b'.cap ≥ b'.len := by
  have h := dynbuf_append_spec alloc100 buf_hi [33, 63, 46] 3
    ⟨rfl, by decide, by decide⟩ (by decide) (by decide) (by decide) (by decide)
  obtain ⟨b', hb⟩ := h.2 (fun _ => by decide)
  obtain ⟨h1, h2, h3⟩ := h.1 b' hb
  exact ⟨b', hb, h1, h2 0 (by decide), h3⟩

/-- C2: `dynbuf_append` with null data (any size) or with size 0 (any data) returns the
buffer as it was: `len`, `cap` and every stored byte are unchanged. -/
theorem dynbuf_append_noop (A : Alloc) (buf : dynbuf) (str : Option (List Nat)) (size : Nat) :
    dynbuf_append A buf none size = .ok buf ∧ dynbuf_append A buf str 0 = .ok buf := by
  constructor
  · rfl
  · cases str <;> rfl

/-- C4: for a live buffer with `len ≤ cap` and non-null data of `size > 0` bytes, every
return of `dynbuf_append` has `cap` grown by exactly `size` when `len + size > cap` and
unchanged otherwise, and the call returns when the grown block is granted; a buffer with
`cap` 4 and `len` 0 that receives 5 bytes ends with `cap = 9` and `len = 5`. -/
theorem dynbuf_append_growth (A : Alloc) (buf : dynbuf) (s : List Nat) (size : Nat)
    (hlive : live buf) (hle : buf.len ≤ buf.cap) (hpos : 0 < size) (hs : size ≤ s.length)
    (hov : buf.len + size < SIZE_MOD) :
    (∀ b', dynbuf_append A buf (some s) size = .ok b' →
        b'.cap = (if buf.len + size > buf.cap then buf.cap + size else buf.cap)) ∧
      ((buf.cap < buf.len + size → buf.cap + size ≤ A.limit) →
        ∃ b', dynbuf_append A buf (some s) size = .ok b') ∧
      (∀ d t : List Nat, d.length = 4 → t.length = 5 → 9 ≤ A.limit →
        ∃ b', dynbuf_append A { data := d, len := 0, cap := 4 } (some t) 5 = .ok b' ∧
          b'.cap = 9 ∧ b'.len = 5) := by
  refine ⟨?_, ?_, ?_⟩
  · intro b' h
    exact (append_inv A buf b' s size (by omega) hlive h).2.2.2.2.1
  · intro hmem
    exact append_returns A buf s size (by omega) hlive hle hs hov hmem
  · intro d t hd ht hA
    have hl : live { data := d, len := 0, cap := 4 } :=
      ⟨hd, by simp [SIZE_MOD], by simp [SIZE_MOD]⟩
    obtain ⟨b', hb⟩ := append_returns A { data := d, len := 0, cap := 4 } t 5 (by decide) hl
      (by simp) (by omega) (by simp [SIZE_MOD]) (fun _ => hA)
    have hi := append_inv A _ b' t 5 (by decide) hl hb
    exact ⟨b', hb, by simpa using hi.2.2.2.2.1, by simpa using hi.2.2.2.1⟩

/-- Witness for C4: five bytes appended to a fresh buffer of capacity 4. -/
theorem dynbuf_append_growth_witness :
    ∃ b', dynbuf_append alloc100 buf_empty4 (some [104, 101, 108, 108, 111]) 5 = .ok b' ∧
      b'.cap = 9 ∧ b'.len = 5 :=
  (dynbuf_append_growth alloc100 buf_empty4 [104, 101, 108, 108, 111] 5
    ⟨rfl, by decide, by decide⟩ (by decide) (by decide) (by decide) (by decide)).2.2
    [0, 0, 0, 0] [104, 101, 108, 108, 111] rfl rfl (by decide)

/-! ## Clearing -/

/-- C6: for a live buffer with `len ≤ cap`, `dynbuf_clear` returns a buffer whose bytes
at offsets `[0, old len)` are all zero, whose `len` is 0 and whose `cap` is unchanged. -/
theorem dynbuf_clear_spec (buf : dynbuf) (hlive : live buf) (hle : buf.len ≤ buf.cap) :
    ∃ b', dynbuf_clear buf = .ok b' ∧
      (∀ i, i < buf.len → b'.data[i]? = some 0) ∧ b'.len = 0 ∧ b'.cap = buf.cap := by
  have hb := hlive.block
  unfold dynbuf_clear memset
  rw [if_neg (by omega)]
  refine ⟨_, rfl, ?_, rfl, rfl⟩
  intro i hi
  simp only
  rw [List.getElem?_append_left (by simp only [List.length_replicate]; exact hi)]
  exact List.getElem?_replicate_of_lt hi

/-- Witness for C6: clearing the full buffer `abc`. -/
theorem dynbuf_clear_spec_witness :
    ∃ b', dynbuf_clear buf_abc = .ok b' ∧
      (∀ i, i < 3 → b'.data[i]? = some 0) ∧ b'.len = 0 ∧ b'.cap = 3 :=
  dynbuf_clear_spec buf_abc ⟨rfl, by decide, by decide⟩ (by decide)

/-- C7: for a live buffer with `cap ≥ 1`, `dynbuf_soft_clear` returns a buffer with `len`
0, a zero byte at offset 0, `cap` unchanged, and every byte at an offset in `[1, cap)` as
it was before the call. -/
theorem dynbuf_soft_clear_spec (buf : dynbuf) (hlive : live buf) (hcap : 1 ≤ buf.cap) :
    ∃ b', dynbuf_soft_clear buf = .ok b' ∧
      b'.len = 0 ∧ b'.data[0]? = some 0 ∧ b'.cap = buf.cap ∧
      (∀ i, 1 ≤ i → i < buf.cap → b'.data[i]? = buf.data[i]?) := by
  have hb := hlive.block
  have h0 : 0 < buf.data.length := by omega
  unfold dynbuf_soft_clear store
  rw [if_pos h0]
  refine ⟨_, rfl, rfl, ?_, rfl, ?_⟩
  · exact List.getElem?_set_eq_of_lt 0 h0
  · intro i hi _
    exact List.getElem?_set_ne (by omega)

/-- Witness for C7: soft-clearing the full buffer `abc` keeps `b` and `c` in place. -/
theorem dynbuf_soft_clear_spec_witness :
    ∃ b', dynbuf_soft_clear buf_abc = .ok b' ∧
      b'.len = 0 ∧ b'.data[0]? = some 0 ∧ b'.cap = 3 ∧
      (∀ i, 1 ≤ i → i < 3 → b'.data[i]? = buf_abc.data[i]?) :=
  dynbuf_soft_clear_spec buf_abc ⟨rfl, by decide, by decide⟩ (by decide)

/-! ## Capacity management -/

/-- What a returning `dynbuf_resize` has done. -/
theorem resize_inv (A : Alloc) (buf b' : dynbuf) (n : Nat)
    (h : dynbuf_resize A buf n = .ok b') :
    0 < n ∧ n ≤ A.limit ∧ b'.cap = n ∧ b'.len = buf.len ∧ b'.data.length = n ∧
      (∀ i, i < buf.data.length → i < n → b'.data[i]? = buf.data[i]?) := by
  unfold dynbuf_resize at h
  split at h
  · exact absurd h (by simp)
  · cases hx : xrealloc A buf.data n with
    | error e => rw [hx] at h; exact absurd h (by simp)
    | ok d =>
      rw [hx] at h
      injection h with h
      subst h
      obtain ⟨x0, xl, xlen, xget⟩ := xrealloc_inv A _ _ _ hx
      exact ⟨x0, xl, rfl, rfl, xlen, xget⟩

/-- A `dynbuf_resize` to a non-zero size the allocator grants returns. -/
theorem resize_returns (A : Alloc) (buf : dynbuf) (n : Nat) (hpos : 0 < n)
    (hmem : n ≤ A.limit) : ∃ b', dynbuf_resize A buf n = .ok b' := by
  unfold dynbuf_resize
  rw [if_neg (by omega), xrealloc_ok A _ _ hpos hmem]
  exact ⟨_, rfl⟩

/-- C8: for a live buffer and any `n`, every return of `dynbuf_reserve` has `cap ≥ n` and
`cap ≥` the prior `cap`; when `n ≤` the prior `cap` the buffer is returned as it was, and
when `n >` the prior `cap` the new `cap` is exactly `n`, `len` is unchanged and every byte
stored at an offset in `[0, len)` keeps its value; the call returns when a needed block of
`n` bytes is granted. -/
theorem dynbuf_reserve_spec (A : Alloc) (buf : dynbuf) (n : Nat) (hlive : live buf) :
    (∀ b', dynbuf_reserve A buf n = .ok b' →
        b'.cap ≥ n ∧ b'.cap ≥ buf.cap ∧
        (n ≤ buf.cap → b' = buf) ∧
        (n > buf.cap → b'.cap = n ∧ b'.len = buf.len ∧
          ∀ i v, i < buf.len → buf.data[i]? = some v → b'.data[i]? = some v)) ∧
      ((buf.cap < n → n ≤ A.limit) → ∃ b', dynbuf_reserve A buf n = .ok b') := by
  have hb := hlive.block
  constructor
  · intro b' h
    unfold dynbuf_reserve at h
    by_cases hc : buf.cap < n
    · rw [if_pos hc] at h
      obtain ⟨-, -, c1, c2, -, c4⟩ := resize_inv A buf b' n h
      refine ⟨by omega, by omega, fun hn => absurd hc (by omega), fun _ => ⟨c1, c2, ?_⟩⟩
      intro i v _ hv
      have hi : i < buf.data.length := by
        by_contra hcon
        rw [List.getElem?_eq_none (by omega)] at hv
        exact absurd hv (by simp)
      rw [c4 i hi (by omega)]
      exact hv
    · rw [if_neg hc] at h
      injection h with h
      subst h
      exact ⟨by omega, le_refl _, fun _ => rfl, fun hn => absurd hn hc⟩
  · intro hmem
    unfold dynbuf_reserve
    by_cases hc : buf.cap < n
    · rw [if_pos hc]
      exact resize_returns A buf n (by omega) (hmem hc)
    · rw [if_neg hc]
      exact ⟨_, rfl⟩

/-- Witness for C8: reserving 10 bytes for the full buffer `abc`. -/
theorem dynbuf_reserve_spec_witness :
    ∃ b', dynbuf_reserve alloc100 buf_abc 10 = .ok b' ∧ b'.cap = 10 ∧ b'.len = 3 ∧
      b'.data[2]? = some 99 := by
  have h := dynbuf_reserve_spec alloc100 buf_abc 10 ⟨rfl, by decide, by decide⟩
  obtain ⟨b', hb⟩ := h.2 (fun _ => by decide)
  obtain ⟨-, -, -, h4⟩ := h.1 b' hb
  obtain ⟨c1, c2, c3⟩ := h4 (by decide)
  exact ⟨b', hb, c1, c2, c3 2 99 (by decide) rfl⟩

/-- C9: for every `new_size > 0`, every return of `dynbuf_resize` has `cap` and the size of
the storage block exactly `new_size` and `len` unchanged, whatever the prior `cap` and
`len`, so that for `new_size < len` the result has `len > cap`; the call returns when the
allocator grants `new_size` bytes. -/
theorem dynbuf_resize_spec (A : Alloc) (buf : dynbuf) (new_size : Nat) (hpos : 0 < new_size) :
    (∀ b', dynbuf_resize A buf new_size = .ok b' →
        b'.cap = new_size ∧ b'.data.length = new_size ∧ b'.len = buf.len ∧
        (new_size < buf.len → b'.len > b'.cap)) ∧
      (new_size ≤ A.limit → ∃ b', dynbuf_resize A buf new_size = .ok b') := by
  constructor
  · intro b' h
    obtain ⟨-, -, c1, c2, c3, -⟩ := resize_inv A buf b' new_size h
    exact ⟨c1, c3, c2, fun hlt => by omega⟩
  · exact resize_returns A buf new_size hpos

/-- Witness for C9: shrinking the full buffer `abc` to one byte leaves `len = 3 > cap = 1`. -/
theorem dynbuf_resize_spec_witness :
    ∃ b', dynbuf_resize alloc100 buf_abc 1 = .ok b' ∧ b'.cap = 1 ∧ b'.len = 3 ∧
      b'.len > b'.cap := by
  have h := dynbuf_resize_spec alloc100 buf_abc 1 (by decide)
  obtain ⟨b', hb⟩ := h.2 (by decide)
  obtain ⟨c1, -, c3, c4⟩ := h.1 b' hb
  exact ⟨b', hb, c1, c3, c4 (by decide)⟩

/-! ## The single-byte path -/

/-- C10: for a live buffer with `len ≤ cap` and any byte `c`, `dynbuf_append_char` gives the
same outcome (`len`, `cap` and stored bytes) as `dynbuf_append` of the one-byte object
holding `c`; every return has `cap` grown by exactly 1 when `len + 1 > cap` and unchanged
otherwise, and the call returns when the grown block is granted. -/
theorem dynbuf_append_char_refines (A : Alloc) (buf : dynbuf) (c : Nat) (hlive : live buf)
    (hle : buf.len ≤ buf.cap) :
    dynbuf_append_char A buf c = dynbuf_append A buf (some [c]) 1 ∧
      (∀ b', dynbuf_append_char A buf c = .ok b' →
        b'.len = buf.len + 1 ∧ b'.data[buf.len]? = some c ∧
        b'.cap = (if buf.len + 1 > buf.cap then buf.cap + 1 else buf.cap)) ∧
      ((buf.cap < buf.len + 1 → buf.cap + 1 ≤ A.limit) →
        ∃ b', dynbuf_append_char A buf c = .ok b') := by
  refine ⟨append_char_eq A buf c, ?_, ?_⟩
  · intro b' h
    rw [append_char_eq] at h
    obtain ⟨-, -, -, hl, hc, -, -, -, hnew⟩ := append_inv A buf b' [c] 1 (by decide) hlive h
    exact ⟨hl, by simpa using hnew 0 (by decide), hc⟩
  · intro hmem
    rw [append_char_eq]
    have hcap := hlive.cap_rng
    have hA := limit_bound A
    simp only [SIZE_MOD] at *
    exact append_returns A buf [c] 1 (by decide) hlive hle (by simp)
      (by simp only [SIZE_MOD]; omega) hmem

/-- Witness for C10: one byte appended to the full buffer `abc`, including the zero byte. -/
theorem dynbuf_append_char_refines_witness :
    dynbuf_append_char alloc100 buf_abc 0 = dynbuf_append alloc100 buf_abc (some [0]) 1 ∧
      ∃ b', dynbuf_append_char alloc100 buf_abc 0 = .ok b' ∧ b'.len = 4 ∧ b'.cap = 4 := by
  have h := dynbuf_append_char_refines alloc100 buf_abc 0 ⟨rfl, by decide, by decide⟩
    (by decide)
  obtain ⟨b', hb⟩ := h.2.2 (fun _ => by decide)
  obtain ⟨c1, -, c3⟩ := h.2.1 b' hb
  exact ⟨h.1, b', hb, c1, c3⟩

/-! ## Invariants of the public operations -/

/-- Every return of an operation other than `resize` leaves `len ≤ cap` and does not
lower `cap`; a return of `resize` sets `cap` and keeps `len`. -/
theorem run_keeps (A : Alloc) (buf b' : dynbuf) (op : Op) (hlive : live buf)
    (hle : buf.len ≤ buf.cap) (h : run A buf op = .ok b') :
    (b'.len ≤ b'.cap ∧ buf.cap ≤ b'.cap) ∨
      ∃ n, op = .resize n ∧ b'.cap = n ∧ b'.len = buf.len := by
  have hb := hlive.block
  cases op with
  | clear =>
    left
    simp only [run, dynbuf_clear] at h
    cases hm : memset buf.data 0 buf.len with
    | error e => rw [hm] at h; exact absurd h (by simp)
    | ok d =>
      rw [hm] at h
      injection h with h
      subst h
      exact ⟨Nat.zero_le _, le_refl _⟩
  | soft_clear =>
    left
    simp only [run, dynbuf_soft_clear] at h
    cases hm : store buf.data 0 0 with
    | error e => rw [hm] at h; exact absurd h (by simp)
    | ok d =>
      rw [hm] at h
      injection h with h
      subst h
      exact ⟨Nat.zero_le _, le_refl _⟩
  | reserve size =>
    left
    simp only [run, dynbuf_reserve] at h
    by_cases hc : buf.cap < size
    · rw [if_pos hc] at h
      obtain ⟨-, -, c1, c2, -, -⟩ := resize_inv A buf b' size h
      omega
    · rw [if_neg hc] at h
      injection h with h
      subst h
      exact ⟨hle, le_refl _⟩
  | resize new_size =>
    right
    simp only [run] at h
    obtain ⟨-, -, c1, c2, -, -⟩ := resize_inv A buf b' new_size h
    exact ⟨new_size, rfl, c1, c2⟩
  | append str len =>
    left
    obtain ⟨-, k1, k2, -⟩ := append_keeps A buf b' str len hlive hle h
    exact ⟨k1, k2⟩
  | append_char c =>
    left
    simp only [run, append_char_eq] at h
    obtain ⟨-, k1, k2, -⟩ := append_keeps A buf b' _ 1 hlive hle h
    exact ⟨k1, k2⟩
  | terminate =>
    left
    simp only [run, dynbuf_terminate, append_char_eq] at h
    obtain ⟨-, k1, k2, -⟩ := append_keeps A buf b' _ 1 hlive hle h
    exact ⟨k1, k2⟩
  | append_string str =>
    left
    simp only [run, dynbuf_append_string] at h
    cases str with
    | none =>
      injection h with h
      subst h
      exact ⟨hle, le_refl _⟩
    | some s =>
      simp only at h
      cases hs : strlen s with
      | none => rw [hs] at h; exact absurd h (by simp)
      | some l =>
        rw [hs] at h
        obtain ⟨-, k1, k2, -⟩ := append_keeps A buf b' _ l hlive hle h
        exact ⟨k1, k2⟩
  | append_strings count args =>
    left
    simp only [run, dynbuf_append_strings] at h
    exact (append_strings_loop_keeps A _ args buf b' hlive hle h).2
  | append_fmt out =>
    left
    simp only [run] at h
    cases hf : dynbuf_append_fmt A buf out out with
    | error e => rw [hf] at h; exact absurd h (by simp)
    | ok p =>
      obtain ⟨r, b⟩ := p
      rw [hf] at h
      injection h with h
      subst h
      rcases append_fmt_inv A buf b out r hlive hle hf with ⟨-, -, he⟩ | ⟨s, -, -, -, hl, hc, -, -⟩
      · subst he
        exact ⟨hle, le_refl _⟩
      · split at hc <;> omega
  | tolower =>
    left
    simp only [run, dynbuf_tolower] at h
    cases hm : tolower_loop buf.len 0 buf.data with
    | error e => rw [hm] at h; exact absurd h (by simp)
    | ok d =>
      rw [hm] at h
      injection h with h
      subst h
      exact ⟨hle, le_refl _⟩

/-- A call with valid arguments returns when the allocator can grant the largest block it
may ask for. -/
theorem run_returns (A : Alloc) (buf : dynbuf) (op : Op) (hlive : live buf)
    (hle : buf.len ≤ buf.cap) (hr : ready A buf op) : ∃ b', run A buf op = .ok b' := by
  have hb := hlive.block
  have hcap := hlive.cap_rng
  have hA := limit_bound A
  have hchar : ∀ c, buf.cap + 1 ≤ A.limit → ∃ b', dynbuf_append A buf (some [c]) 1 = .ok b' :=
    fun c hm => append_returns A buf [c] 1 (by decide) hlive hle (by simp)
      (by simp only [SIZE_MOD]; omega) (fun _ => hm)
  have hany : ∀ s n, n ≤ s.length → buf.cap + n ≤ A.limit →
      ∃ b', dynbuf_append A buf (some s) n = .ok b' := by
    intro s n hs hm
    by_cases hn : n = 0
    · subst hn; exact ⟨buf, rfl⟩
    · exact append_returns A buf s n hn hlive hle hs (by simp only [SIZE_MOD]; omega)
        (fun _ => hm)
  cases op with
  | clear =>
    simp only [run, dynbuf_clear, memset]
    rw [if_neg (by omega)]
    exact ⟨_, rfl⟩
  | soft_clear =>
    simp only [ready] at hr
    simp only [run, dynbuf_soft_clear, store]
    rw [if_pos (by omega)]
    exact ⟨_, rfl⟩
  | reserve size =>
    simp only [ready] at hr
    simp only [run, dynbuf_reserve]
    by_cases hc : buf.cap < size
    · rw [if_pos hc]
      exact resize_returns A buf size (by omega) (by omega)
    · rw [if_neg hc]
      exact ⟨_, rfl⟩
  | resize new_size =>
    simp only [ready] at hr
    exact resize_returns A buf new_size hr.1 hr.2
  | append str len =>
    simp only [ready] at hr
    cases str with
    | none => exact ⟨buf, rfl⟩
    | some s => exact hany s len (hr s rfl).1 (hr s rfl).2
  | append_char c =>
    simp only [ready] at hr
    simp only [run, append_char_eq]
    exact hchar c hr
  | terminate =>
    simp only [ready] at hr
    simp only [run, dynbuf_terminate, append_char_eq]
    exact hchar 0 hr
  | append_string str =>
    simp only [ready] at hr
    cases str with
    | none => exact ⟨buf, rfl⟩
    | some s =>
      obtain ⟨l, hs, hm⟩ := hr s rfl
      simp only [run, dynbuf_append_string, hs]
      exact hany s l (by have := strlen_le s l hs; omega) hm
  | append_strings count args =>
    simp only [ready] at hr
    obtain ⟨t, ht, hm⟩ := hr
    exact append_strings_loop_returns A _ args buf t hlive hle ht hm
  | append_fmt out =>
    simp only [ready] at hr
    obtain ⟨r, b', hf⟩ := append_fmt_returns A buf out hlive hle
      (fun s hs _ => by have := hr s hs; omega)
    exact ⟨b', by simp only [run, hf]⟩
  | tolower =>
    obtain ⟨d, hd⟩ := tolower_loop_returns buf.len 0 buf.data (by omega)
    exact ⟨{ buf with data := d }, by simp only [run, dynbuf_tolower, hd]⟩

/-- C3 (amended: `resize` only to a `new_size ≥ len`): for a live buffer with `len ≤ cap`
and any call of clear, soft_clear, reserve, resize, append, append_char, terminate,
append_string, append_strings, append_fmt or to_lowercase, every return leaves
`len ≤ cap`; and the call returns when its arguments are valid and the allocator can
grant the block it may ask for. -/
theorem len_le_cap_after (A : Alloc) (buf : dynbuf) (op : Op) (hlive : live buf)
    (hle : buf.len ≤ buf.cap) (hres : ∀ n, op = .resize n → buf.len ≤ n) :
    (∀ b', run A buf op = .ok b' → b'.len ≤ b'.cap) ∧
      (ready A buf op → ∃ b', run A buf op = .ok b') := by
  constructor
  · intro b' h
    rcases run_keeps A buf b' op hlive hle h with ⟨k, -⟩ | ⟨n, hn, c1, c2⟩
    · exact k
    · have := hres n hn
      omega
  · exact run_returns A buf op hlive hle

/-- Witness for C3: growing the full buffer `abc` to 5 bytes with `resize`. -/
theorem len_le_cap_after_witness :
    ∃ b', run alloc100 buf_abc (.resize 5) = .ok b' ∧ b'.len ≤ b'.cap := by
  have h := len_le_cap_after alloc100 buf_abc (.resize 5) ⟨rfl, by decide, by decide⟩
    (by decide) (fun n hn => by injection hn with hn; subst hn; decide)
  obtain ⟨b', hb⟩ := h.2 ⟨by decide, by decide⟩
  exact ⟨b', hb, h.1 b' hb⟩

/-- Counterexample to C3 as stated: the live buffer `abc` has `len = cap = 3`, and
`resize` to `new_size = 1 > 0` returns a buffer with `len = 3 > cap = 1`. -/
theorem resize_breaks_len_le_cap :
    live buf_abc ∧ buf_abc.len ≤ buf_abc.cap ∧ 0 < 1 ∧
      ∃ b', run alloc100 buf_abc (.resize 1) = .ok b' ∧ ¬ b'.len ≤ b'.cap :=
  ⟨⟨rfl, by decide, by decide⟩, by decide, by decide,
    { data := [97], len := 3, cap := 1 }, rfl, by decide⟩

/-- C5: for a live buffer with `len ≤ cap` and any call of clear, soft_clear, reserve,
append, append_char, terminate, append_string, append_strings, append_fmt or
to_lowercase (every operation of the interface but `resize`), every return has `cap` at
least the `cap` before the call; and the call returns when its arguments are valid and the
allocator can grant the block it may ask for. -/
theorem cap_monotone (A : Alloc) (buf : dynbuf) (op : Op) (hlive : live buf)
    (hle : buf.len ≤ buf.cap) (hop : ∀ n, op ≠ .resize n) :
    (∀ b', run A buf op = .ok b' → b'.cap ≥ buf.cap) ∧
      (ready A buf op → ∃ b', run A buf op = .ok b') := by
  constructor
  · intro b' h
    rcases run_keeps A buf b' op hlive hle h with ⟨-, k⟩ | ⟨n, hn, -, -⟩
    · exact k
    · exact absurd hn (hop n)
  · exact run_returns A buf op hlive hle

/-- Witness for C5: formatting the two bytes `42` into the full buffer `abc` raises `cap`
from 3 to 6. -/
theorem cap_monotone_witness :
    ∃ b', run alloc100 buf_abc (.append_fmt (some [52, 50])) = .ok b' ∧ b'.cap ≥ 3 := by
  have h := cap_monotone alloc100 buf_abc (.append_fmt (some [52, 50]))
    ⟨rfl, by decide, by decide⟩ (by decide) (fun n hn => by cases hn)
  obtain ⟨b', hb⟩ := h.2 (fun s hs => by injection hs with hs; subst hs; decide)
  exact ⟨b', hb, h.1 b' hb⟩

/-! ## Strings -/

/-- The value of `strlen` is the offset of the terminator: the bytes before it are not
zero and the byte at it is. -/
theorem strlen_spec (s : List Nat) (l : Nat) (h : strlen s = some l) :
    s[l]? = some 0 ∧ ∀ i, i < l → ∃ c, s[i]? = some c ∧ c ≠ 0 := by
  induction s generalizing l with
  | nil => exact absurd h (by simp [strlen])
  | cons c t ih =>
    unfold strlen at h
    split at h
    · rename_i hc
      injection h with h
      subst h
      subst hc
      exact ⟨by simp, fun i hi => absurd hi (by omega)⟩
    · rename_i hc
      cases ht : strlen t with
      | none => rw [ht] at h; exact absurd h (by simp)
      | some k =>
        rw [ht] at h
        simp only [Option.map_some'] at h
        injection h with h
        subst h
        obtain ⟨i1, i2⟩ := ih k ht
        refine ⟨by simpa using i1, ?_⟩
        intro i hi
        cases i with
        | zero => exact ⟨c, by simp, hc⟩
        | succ j => simpa using i2 j (by omega)

/-- C11: for a live buffer with `len ≤ cap` and a null-terminated string `s`, every return
of `dynbuf_append_string` has `len` grown by exactly `strlen(s)`, the `strlen(s)` bytes of
`s` before its terminator stored at `[old len, old len + strlen(s))` and the earlier bytes
kept, and the call returns when a needed grown block is granted; a null `s` is a no-op;
`"hello"` then `"world"` appended to an empty buffer gives the stored bytes `helloworld`
with `len = 10`. -/
theorem dynbuf_append_string_spec (A : Alloc) (buf : dynbuf) (s : List Nat) (l : Nat)
    (hlive : live buf) (hle : buf.len ≤ buf.cap) (hs : strlen s = some l) :
    (s[l]? = some 0 ∧ ∀ i, i < l → ∃ c, s[i]? = some c ∧ c ≠ 0) ∧
      (∀ b', dynbuf_append_string A buf (some s) = .ok b' →
        b'.len = buf.len + l ∧
        (∀ i, i < l → b'.data[buf.len + i]? = s[i]?) ∧
        (∀ i, i < buf.len → b'.data[i]? = buf.data[i]?)) ∧
      ((buf.cap < buf.len + l → buf.cap + l ≤ A.limit) →
        ∃ b', dynbuf_append_string A buf (some s) = .ok b') ∧
      dynbuf_append_string A buf none = .ok buf ∧
      (∃ b1 b2, dynbuf_append_string alloc100 buf_empty4 (some str_hello) = .ok b1 ∧
        dynbuf_append_string alloc100 b1 (some str_world) = .ok b2 ∧
        b2.len = 10 ∧ b2.data.take b2.len = bytes_helloworld) := by
  have hdef : dynbuf_append_string A buf (some s) = dynbuf_append A buf (some s) l := by
    simp only [dynbuf_append_string, hs]
  refine ⟨strlen_spec s l hs, ?_, ?_, rfl, ?_⟩
  · intro b' h
    rw [hdef] at h
    by_cases hl : l = 0
    · subst hl
      have h2 : dynbuf_append A buf (some s) 0 = .ok buf := rfl
      rw [h2] at h
      injection h with h
      subst h
      exact ⟨rfl, fun i hi => absurd hi (by omega), fun _ _ => rfl⟩
    · obtain ⟨-, -, -, c1, -, -, -, c2, c3⟩ := append_inv A buf b' s l hl hlive h
      exact ⟨c1, c3, c2⟩
  · intro hmem
    rw [hdef]
    by_cases hl : l = 0
    · subst hl
      exact ⟨buf, rfl⟩
    · have hcap := hlive.cap_rng
      have hA := limit_bound A
      have hsl := strlen_le s l hs
      simp only [SIZE_MOD] at hcap
      exact append_returns A buf s l hl hlive hle (by omega)
        (by simp only [SIZE_MOD]; omega) hmem
  · exact ⟨{ data := [104, 101, 108, 108, 111, 0, 0, 0, 0], len := 5, cap := 9 },
      { data := [104, 101, 108, 108, 111, 119, 111, 114, 108, 100, 0, 0, 0, 0],
        len := 10, cap := 14 }, rfl, rfl, rfl, rfl⟩

/-- Witness for C11: `"world"` appended to the full buffer `abc`. -/
theorem dynbuf_append_string_spec_witness :
    ∃ b', dynbuf_append_string alloc100 buf_abc (some str_world) = .ok b' ∧
      b'.len = 8 ∧ b'.data[3]? = some 119 ∧ b'.data[0]? = some 97 := by
  have h := dynbuf_append_string_spec alloc100 buf_abc str_world 5
    ⟨rfl, by decide, by decide⟩ (by decide) rfl
  obtain ⟨b', hb⟩ := h.2.2.1 (fun _ => by decide)
  obtain ⟨c1, c2, c3⟩ := h.2.1 b' hb
  exact ⟨b', hb, c1, c2 0 (by decide), c3 0 (by decide)⟩

theorem append_strings_loop_eq_seq (A : Alloc) (ss : List (List Nat)) (buf : dynbuf) :
    append_strings_loop A ss.length (ss.map some) buf = append_string_seq A buf ss := by
  induction ss generalizing buf with
  | nil => rfl
  | cons s rest ih =>
    simp only [List.length_cons, List.map_cons, append_strings_loop, append_string_seq,
      dynbuf_append_string]
    cases hs : strlen s with
    | none => rfl
    | some l =>
      simp only
      cases ha : dynbuf_append A buf (some s) l with
      | error e => rfl
      | ok b => exact ih b

/-- C12: for a live buffer with `len ≤ cap` and `count` non-null strings, the outcome of
`dynbuf_append_strings` (`len`, `cap` and stored bytes) is that of calling
`dynbuf_append_string` on the strings one after the other in order, and the call returns
when the allocator can grant `cap` plus the total length; for `count = 2` with `"hello"`,
`"world"` on an empty buffer it is the outcome of the two sequential calls. -/
theorem dynbuf_append_strings_refines (A : Alloc) (buf : dynbuf) (ss : List (List Nat))
    (hlive : live buf) (hle : buf.len ≤ buf.cap) :
    dynbuf_append_strings A buf (ss.length : Int) (ss.map some) = append_string_seq A buf ss ∧
      (∀ t, strings_total ss.length (ss.map some) = some t → buf.cap + t ≤ A.limit →
        ∃ b', dynbuf_append_strings A buf (ss.length : Int) (ss.map some) = .ok b') ∧
      (∃ b1 b2, dynbuf_append_string alloc100 buf_empty4 (some str_hello) = .ok b1 ∧
        dynbuf_append_string alloc100 b1 (some str_world) = .ok b2 ∧
        dynbuf_append_strings alloc100 buf_empty4 2 [some str_hello, some str_world]
          = .ok b2) := by
  have hcount : ((ss.length : Int)).toNat = ss.length := Int.toNat_ofNat _
  refine ⟨?_, ?_, ?_⟩
  · simp only [dynbuf_append_strings, hcount]
    exact append_strings_loop_eq_seq A ss buf
  · intro t ht hmem
    simp only [dynbuf_append_strings, hcount]
    exact append_strings_loop_returns A _ _ buf t hlive hle ht hmem
  · exact ⟨{ data := [104, 101, 108, 108, 111, 0, 0, 0, 0], len := 5, cap := 9 },
      { data := [104, 101, 108, 108, 111, 119, 111, 114, 108, 100, 0, 0, 0, 0],
        len := 10, cap := 14 }, rfl, rfl, rfl⟩

/-- Witness for C12: `"hello"`, `"world"` appended to the full buffer `abc` in one call and
in two. -/
theorem dynbuf_append_strings_refines_witness :
    dynbuf_append_strings alloc100 buf_abc 2 [some str_hello, some str_world]
        = append_string_seq alloc100 buf_abc [str_hello, str_world] ∧
      ∃ b', dynbuf_append_strings alloc100 buf_abc 2 [some str_hello, some str_world]
        = .ok b' := by
  have h := dynbuf_append_strings_refines alloc100 buf_abc [str_hello, str_world]
    ⟨rfl, by decide, by decide⟩ (by decide)
  exact ⟨h.1, h.2.1 10 rfl (by decide)⟩

/-- C13: for a live buffer with `len ≤ cap`, every return of `dynbuf_terminate` has `len`
grown by exactly 1, a zero byte at offset `old len` and the bytes in `[0, old len)` kept,
so that the last stored byte is zero and `dynbuf_is_string` holds; the call returns when a
needed grown block is granted; on a buffer holding `ab` the result has `len = 3` and the
bytes `a`, `b`, 0. -/
theorem dynbuf_terminate_spec (A : Alloc) (buf : dynbuf) (hlive : live buf)
    (hle : buf.len ≤ buf.cap) :
    (∀ b', dynbuf_terminate A buf = .ok b' →
        b'.len = buf.len + 1 ∧ b'.data[buf.len]? = some 0 ∧
        (∀ i, i < buf.len → b'.data[i]? = buf.data[i]?) ∧
        b'.data[b'.len - 1]? = some 0 ∧ dynbuf_is_string b' = .ok true) ∧
      ((buf.cap < buf.len + 1 → buf.cap + 1 ≤ A.limit) →
        ∃ b', dynbuf_terminate A buf = .ok b') ∧
      dynbuf_terminate alloc100 buf_ab = .ok { data := [97, 98, 0], len := 3, cap := 3 } := by
  refine ⟨?_, ?_, rfl⟩
  · intro b' h
    simp only [dynbuf_terminate, append_char_eq] at h
    obtain ⟨-, -, hov, c1, -, -, hl', c2, c3⟩ := append_inv A buf b' [0] 1 (by decide) hlive h
    have hz : b'.data[buf.len]? = some 0 := by simpa using c3 0 (by decide)
    have hidx : (b'.len + SIZE_MOD - 1) % SIZE_MOD = buf.len := by
      simp only [SIZE_MOD] at hov ⊢
      omega
    refine ⟨c1, hz, c2, ?_, ?_⟩
    · rw [c1, Nat.add_sub_cancel]
      exact hz
    · simp only [dynbuf_is_string, hidx, hz]
      rfl
  · intro hmem
    simp only [dynbuf_terminate, append_char_eq]
    have hcap := hlive.cap_rng
    have hA := limit_bound A
    simp only [SIZE_MOD] at hcap
    exact append_returns A buf [0] 1 (by decide) hlive hle (by simp)
      (by simp only [SIZE_MOD]; omega) hmem

/-- Witness for C13: terminating the buffer `hi` of capacity 4, which has room. -/
theorem dynbuf_terminate_spec_witness :
    ∃ b', dynbuf_terminate alloc100 buf_hi = .ok b' ∧ b'.len = 3 ∧
      b'.data[2]? = some 0 ∧ b'.data[0]? = some 104 ∧ dynbuf_is_string b' = .ok true := by
  have h := dynbuf_terminate_spec alloc100 buf_hi ⟨rfl, by decide, by decide⟩ (by decide)
  obtain ⟨b', hb⟩ := h.2.1 (fun hc => absurd hc (by decide))
  obtain ⟨c1, c2, c3, -, c5⟩ := h.1 b' hb
  exact ⟨b', hb, c1, c2, c3 0 (by decide), c5⟩

/-! ## The contract of `dynbuf_append_fmt` -/

theorem ERR_ne_OK : ERR ≠ OK := by decide

/-- C14: for a live buffer with `len ≤ cap` and a formatting whose output is the byte
sequence `s`, every return of `dynbuf_append_fmt` with `OK` has `s` stored at
`[old len, old len + n)`, `len = old len + n`, a zero byte at offset `len`,
`cap ≥ len + 1` and the earlier bytes kept; the call returns `OK` when `n` fits an `int`
and a needed grown block is granted; formatting `"%d-%s"` with 42 and `"x"` into an empty
buffer gives the content `42-x`, `len = 4` and a zero byte at offset 4. -/
theorem dynbuf_append_fmt_spec (A : Alloc) (buf : dynbuf) (s : List Nat) (hlive : live buf)
    (hle : buf.len ≤ buf.cap) :
    (∀ r b', dynbuf_append_fmt A buf (some s) (some s) = .ok (r, b') → r = OK →
        b'.len = buf.len + s.length ∧
        (∀ i, i < s.length → b'.data[buf.len + i]? = s[i]?) ∧
        b'.data[b'.len]? = some 0 ∧
        b'.cap ≥ b'.len + 1 ∧
        (∀ i, i < buf.len → b'.data[i]? = buf.data[i]?)) ∧
      (s.length ≤ INT_MAX →
        (buf.cap < buf.len + s.length + 1 → buf.len + s.length + 1 ≤ A.limit) →
        ∃ b', dynbuf_append_fmt A buf (some s) (some s) = .ok (OK, b')) ∧
      (vformat fmt_d_s [.int 42, .str [120, 0]] = some [52, 50, 45, 120] ∧
        dynbuf_append_fmt alloc100 buf_empty4 (vformat fmt_d_s [.int 42, .str [120, 0]])
            (vformat fmt_d_s [.int 42, .str [120, 0]])
          = .ok (OK, { data := [52, 50, 45, 120, 0], len := 4, cap := 5 })) := by
  refine ⟨?_, ?_, rfl, rfl⟩
  · intro r b' h hr
    rcases append_fmt_inv A buf b' (some s) r hlive hle h with
      ⟨-, he, -⟩ | ⟨t, ht, -, -, c1, c2, -, -, c3, c4⟩
    · rw [hr] at he
      exact absurd he.symm ERR_ne_OK
    · injection ht with ht
      subst ht
      refine ⟨c1, ?_, ?_, ?_, c3⟩
      · intro i hi
        rw [c4 i (by omega), List.getElem?_append_left hi]
      · rw [c1, c4 s.length (by omega), List.getElem?_append_right (le_refl _)]
        simp
      · split at c2 <;> omega
  · intro hs hmem
    obtain ⟨r, b', h⟩ := append_fmt_returns A buf (some s) hlive hle
      (fun t ht hc => by injection ht with ht; subst ht; exact hmem hc)
    rcases append_fmt_inv A buf b' (some s) r hlive hle h with
      ⟨hneg, -, -⟩ | ⟨t, -, -, hr, -⟩
    · simp only [fmt_ret, hs, if_true] at hneg
      omega
    · subst hr
      exact ⟨b', h⟩

/-- Witness for C14: the two bytes `42` formatted into the full buffer `abc`. -/
theorem dynbuf_append_fmt_spec_witness :
    ∃ b', dynbuf_append_fmt alloc100 buf_abc (some [52, 50]) (some [52, 50]) = .ok (OK, b') ∧
      b'.len = 5 ∧ b'.data[3]? = some 52 ∧ b'.data[b'.len]? = some 0 ∧ b'.cap ≥ b'.len + 1 := by
  have h := dynbuf_append_fmt_spec alloc100 buf_abc [52, 50] ⟨rfl, by decide, by decide⟩
    (by decide)
  obtain ⟨b', hb⟩ := h.2.1 (by decide) (fun _ => by decide)
  obtain ⟨c1, c2, c3, c4, -⟩ := h.1 OK b' hb rfl
  exact ⟨b', hb, c1, c2 0 (by decide), c3, c4⟩

/-- The call `vsnprintf` writes some list of at most `space` bytes at `off`. -/
theorem vsnprintf_shape (dst : List Nat) (off space : Nat) (out : Option (List Nat)) :
    ∃ w : List Nat, w.length ≤ space ∧
      vsnprintf dst off space out =
        if dst.length < off + w.length then .error .undefined
        else .ok (dst.take off ++ w ++ dst.drop (off + w.length), fmt_ret out) := by
  cases out with
  | none => exact ⟨[], Nat.zero_le _, rfl⟩
  | some s =>
    by_cases h0 : space = 0
    · subst h0
      exact ⟨[], Nat.zero_le _, rfl⟩
    · refine ⟨s.take (space - 1) ++ [0], ?_, ?_⟩
      · simp only [List.length_append, List.length_take, List.length_singleton]
        omega
      · simp only [vsnprintf, h0, if_false]

theorem vsnprintf_inv (dst d : List Nat) (off space : Nat) (out : Option (List Nat)) (n : Int)
    (h : vsnprintf dst off space out = .ok (d, n)) :
    n = fmt_ret out ∧ off ≤ dst.length ∧ d.length = dst.length ∧
      ∀ i, i < off → d[i]? = dst[i]? := by
  obtain ⟨w, -, hw⟩ := vsnprintf_shape dst off space out
  rw [hw] at h
  split at h
  · exact absurd h (by simp)
  · rename_i hb
    injection h with h
    injection h with h1 h2
    subst h1
    refine ⟨h2.symm, by omega, ?_, ?_⟩
    · simp only [List.length_append, List.length_take, List.length_drop]
      omega
    · intro i hi
      rw [List.append_assoc,
        List.getElem?_append_left (by simp only [List.length_take]; omega)]
      rw [List.getElem?_take_of_lt hi]

theorem vsnprintf_returns (dst : List Nat) (off space : Nat) (out : Option (List Nat))
    (h : off + space ≤ dst.length) :
    ∃ d, vsnprintf dst off space out = .ok (d, fmt_ret out) := by
  obtain ⟨w, hl, hw⟩ := vsnprintf_shape dst off space out
  rw [hw, if_neg (by omega)]
  exact ⟨_, rfl⟩

/-- What a returning `dynbuf_append_fmt` has kept, whatever its two formatter calls gave. -/
theorem append_fmt_frame (A : Alloc) (buf b' : dynbuf) (out1 out2 : Option (List Nat))
    (r : Int) (hlive : live buf) (hle : buf.len ≤ buf.cap)
    (h : dynbuf_append_fmt A buf out1 out2 = .ok (r, b')) :
    (r = ERR ↔ fmt_ret out1 < 0 ∨ fmt_ret out2 < 0) ∧
      (r = ERR → b'.len = buf.len) ∧
      (∀ i, i < buf.len → b'.data[i]? = buf.data[i]?) := by
  obtain ⟨hblock, hlen, hcap⟩ := hlive
  unfold dynbuf_append_fmt at h
  by_cases hneg : fmt_ret out1 < 0
  · simp only [hneg, if_true] at h
    injection h with h
    injection h with h1 h2
    subst h1 h2
    exact ⟨⟨fun _ => Or.inl hneg, fun _ => rfl⟩, fun _ => rfl, fun _ _ => rfl⟩
  · simp only [hneg, if_false] at h
    have key : ∀ b : dynbuf, b.len = buf.len →
        (∀ i, i < buf.len → i < b.data.length → b.data[i]? = buf.data[i]?) →
        (match vsnprintf b.data b.len ((b.cap + SIZE_MOD - b.len) % SIZE_MOD) out2 with
          | .error e => .error e
          | .ok (d, n2) =>
            if n2 < 0 then .ok (ERR, { b with data := d })
            else .ok (OK, { b with data := d, len := (b.len + n2.toNat) % SIZE_MOD }))
          = (.ok (r, b') : Except Fault (Int × dynbuf)) →
        (r = ERR ↔ fmt_ret out1 < 0 ∨ fmt_ret out2 < 0) ∧
          (r = ERR → b'.len = buf.len) ∧
          (∀ i, i < buf.len → b'.data[i]? = buf.data[i]?) := by
      intro b hbl hbd hv
      cases hw : vsnprintf b.data b.len ((b.cap + SIZE_MOD - b.len) % SIZE_MOD) out2 with
      | error e => rw [hw] at hv; exact absurd hv (by simp)
      | ok p =>
        obtain ⟨d, n2⟩ := p
        rw [hw] at hv
        obtain ⟨v1, v2, v3, v4⟩ := vsnprintf_inv _ _ _ _ _ _ hw
        have hbytes : ∀ i, i < buf.len → d[i]? = buf.data[i]? := by
          intro i hi
          rw [v4 i (by omega)]
          exact hbd i hi (by omega)
        simp only at hv
        by_cases hn2 : n2 < 0
        · rw [if_pos hn2] at hv
          injection hv with hv
          injection hv with h1 h2
          subst h1 h2
          exact ⟨⟨fun _ => Or.inr (v1 ▸ hn2), fun _ => rfl⟩, fun _ => hbl, hbytes⟩
        · rw [if_neg hn2] at hv
          injection hv with hv
          injection hv with h1 h2
          subst h1 h2
          refine ⟨⟨fun he => absurd he.symm ERR_ne_OK, ?_⟩,
            fun he => absurd he.symm ERR_ne_OK, hbytes⟩
          rintro (h1 | h2)
          · exact absurd h1 hneg
          · exact absurd (v1 ▸ h2) hn2
    split at h
    · exact absurd h (by simp)
    · rename_i b heq
      have hb : b.len = buf.len ∧
          ∀ i, i < buf.len → i < b.data.length → b.data[i]? = buf.data[i]? := by
        split at heq
        · split at heq
          · exact absurd heq (by simp)
          · rename_i d hx
            injection heq with heq
            subst heq
            obtain ⟨-, -, xlen, xget⟩ := xrealloc_inv A _ _ _ hx
            exact ⟨rfl, fun i hi hid => xget i (by omega) (by simp only at hid; omega)⟩
        · injection heq with heq
          subst heq
          exact ⟨rfl, fun _ _ _ => rfl⟩
      exact key b hb.1 hb.2 h

/-- A `dynbuf_append_fmt` returns, whatever its second formatter call gives, when a needed
block of `len + n + 1` bytes is granted. -/
theorem append_fmt_returns_any (A : Alloc) (buf : dynbuf) (out1 out2 : Option (List Nat))
    (hlive : live buf) (hle : buf.len ≤ buf.cap)
    (hmem : ∀ s, out1 = some s → buf.cap < buf.len + s.length + 1 →
      buf.len + s.length + 1 ≤ A.limit) :
    ∃ r b', dynbuf_append_fmt A buf out1 out2 = .ok (r, b') := by
  obtain ⟨hblock, hlen, hcap⟩ := hlive
  have hA := limit_bound A
  unfold dynbuf_append_fmt
  by_cases hneg : fmt_ret out1 < 0
  · simp only [hneg, if_true]
    exact ⟨_, _, rfl⟩
  · obtain ⟨s, hout, hs, hret⟩ := fmt_ret_nonneg out1 hneg
    subst hout
    have hnn : ¬ ((s.length : Int) < 0) := by omega
    simp only [hret, hnn, if_false, Int.toNat_ofNat]
    simp only [SIZE_MOD, INT_MAX] at *
    have hsize : (s.length + 1) % 18446744073709551616 = s.length + 1 :=
      Nat.mod_eq_of_lt (by omega)
    have hroom : (buf.cap + 18446744073709551616 - buf.len) % 18446744073709551616
        = buf.cap - buf.len := by omega
    rw [hsize, hroom]
    by_cases hg : s.length + 1 > buf.cap - buf.len
    · have hm := hmem s rfl (by omega)
      have hcap' : (buf.cap + (s.length + 1 + 18446744073709551616 - (buf.cap - buf.len))
          % 18446744073709551616) % 18446744073709551616 = buf.len + s.length + 1 := by omega
      rw [if_pos hg, hcap', Nat.mul_one, Nat.mod_eq_of_lt (by omega)]
      rw [xrealloc_ok A _ _ (by omega) hm]
      simp only
      have hsp : (buf.len + s.length + 1 + 18446744073709551616 - buf.len)
          % 18446744073709551616 = s.length + 1 := by omega
      rw [hsp]
      obtain ⟨d, hd⟩ := vsnprintf_returns
        (List.take (buf.len + s.length + 1) buf.data ++
          List.map (fun i => A.fresh (buf.data.length + i))
            (List.range (buf.len + s.length + 1 - buf.data.length)))
        buf.len (s.length + 1) out2
        (by simp only [List.length_append, List.length_take, List.length_map,
              List.length_range]; omega)
      rw [hd]
      simp only
      split <;> exact ⟨_, _, rfl⟩
    · rw [if_neg hg]
      simp only
      rw [hroom]
      obtain ⟨d, hd⟩ := vsnprintf_returns buf.data buf.len (buf.cap - buf.len) out2 (by omega)
      rw [hd]
      simp only
      split <;> exact ⟨_, _, rfl⟩

/-- C15: for a live buffer with `len ≤ cap`, a return of `dynbuf_append_fmt` is `ERR`
exactly when one of its two formatter calls reported a negative length, and every return
of `ERR` leaves `len` and the bytes in `[0, len)` as they were; the call does return `ERR`
in both cases (at once when the first call fails, and after a granted growth when the
second one does); `ERR` is 0 and differs from `OK`, which is 1. -/
theorem dynbuf_append_fmt_failure (A : Alloc) (buf : dynbuf) (out1 out2 : Option (List Nat))
    (hlive : live buf) (hle : buf.len ≤ buf.cap) :
    (∀ r b', dynbuf_append_fmt A buf out1 out2 = .ok (r, b') →
        (r = ERR ↔ fmt_ret out1 < 0 ∨ fmt_ret out2 < 0) ∧
        (r = ERR → b'.len = buf.len ∧ ∀ i, i < buf.len → b'.data[i]? = buf.data[i]?)) ∧
      (fmt_ret out1 < 0 → dynbuf_append_fmt A buf out1 out2 = .ok (ERR, buf)) ∧
      (fmt_ret out2 < 0 →
        (∀ s, out1 = some s → buf.cap < buf.len + s.length + 1 →
          buf.len + s.length + 1 ≤ A.limit) →
        ∃ b', dynbuf_append_fmt A buf out1 out2 = .ok (ERR, b')) ∧
      (ERR = 0 ∧ OK = 1 ∧ ERR ≠ OK) := by
  refine ⟨?_, ?_, ?_, rfl, rfl, ERR_ne_OK⟩
  · intro r b' h
    obtain ⟨c1, c2, c3⟩ := append_fmt_frame A buf b' out1 out2 r hlive hle h
    exact ⟨c1, fun he => ⟨c2 he, c3⟩⟩
  · intro hneg
    simp only [dynbuf_append_fmt, hneg, if_true]
  · intro hneg hmem
    obtain ⟨r, b', h⟩ := append_fmt_returns_any A buf out1 out2 hlive hle hmem
    obtain ⟨c1, -, -⟩ := append_fmt_frame A buf b' out1 out2 r hlive hle h
    have hr : r = ERR := c1.mpr (Or.inr hneg)
    subst hr
    exact ⟨b', h⟩

/-- Witness for C15: in the buffer `hi` the first formatter call succeeds with `42` and the
second one fails. -/
theorem dynbuf_append_fmt_failure_witness :
    ∃ b', dynbuf_append_fmt alloc100 buf_hi (some [52, 50]) none = .ok (ERR, b') ∧
      b'.len = 2 ∧ b'.data[0]? = some 104 ∧ b'.data[1]? = some 105 := by
  have h := dynbuf_append_fmt_failure alloc100 buf_hi (some [52, 50]) none
    ⟨rfl, by decide, by decide⟩ (by decide)
  obtain ⟨b', hb⟩ := h.2.2.1 (by decide)
    (fun s hs _ => by injection hs with hs; subst hs; decide)
  obtain ⟨c1, c2⟩ := (h.1 ERR b' hb).2 rfl
  exact ⟨b', hb, c1, c2 0 (by decide), c2 1 (by decide)⟩

/-! ## The contract of `dynbuf_tolower` -/

theorem tolower_idem (c : Nat) : tolower (tolower c) = tolower c := by
  by_cases h : 65 ≤ c ∧ c ≤ 90
  · have h1 : tolower c = c + 32 := by simp only [tolower, h, and_self, if_true]
    rw [h1]
    simp only [tolower]
    rw [if_neg (by omega)]
  · have h1 : tolower c = c := by simp only [tolower, h, if_false]
    rw [h1, h1]

/-- What a returning loop of `dynbuf_tolower` has done: the bytes at `[i, i + n)` are
folded, the others are untouched. -/
theorem tolower_loop_inv (n i : Nat) (d d' : List Nat) (h : tolower_loop n i d = .ok d') :
    (n ≠ 0 → i + n ≤ d.length) ∧ d'.length = d.length ∧
      ∀ j, d'[j]? = if i ≤ j ∧ j < i + n then (d[j]?).map tolower else d[j]? := by
  induction n generalizing i d with
  | zero =>
    unfold tolower_loop at h
    injection h with h
    subst h
    refine ⟨fun hn => absurd rfl hn, rfl, ?_⟩
    intro j
    rw [if_neg (by omega)]
  | succ k ih =>
    unfold tolower_loop at h
    cases hc : d[i]? with
    | none => rw [hc] at h; exact absurd h (by simp)
    | some c =>
      rw [hc] at h
      simp only at h
      obtain ⟨i1, i2, i3⟩ := ih (i + 1) _ h
      have hi : i < d.length := by
        by_contra hcon
        rw [List.getElem?_eq_none (by omega)] at hc
        exact absurd hc (by simp)
      simp only [List.length_set] at i1 i2
      refine ⟨fun _ => ?_, i2, ?_⟩
      · by_cases hk : k = 0
        · omega
        · have := i1 hk
          omega
      · intro j
        rw [i3 j]
        by_cases hj : j = i
        · subst hj
          rw [if_neg (by omega), if_pos (by omega), List.getElem?_set_eq_of_lt _ hi, hc]
          rfl
        · rw [List.getElem?_set_ne (fun h => hj h.symm)]
          by_cases hr : i + 1 ≤ j ∧ j < i + 1 + k
          · rw [if_pos hr, if_pos (by omega)]
          · rw [if_neg hr, if_neg (by omega)]

/-- C16: every return of `dynbuf_tolower` on a live buffer has `len` and `cap` unchanged,
each byte in `[0, len)` that is an uppercase letter `A`..`Z` replaced by the lowercase
letter 32 above it, and every other byte (not a letter, already lowercase, or at an
offset `≥ len`) unchanged; the call returns when `len ≤ cap`; the stored bytes `ABC123`
become `abc123`. -/
theorem dynbuf_tolower_spec (buf : dynbuf) (hlive : live buf) :
    (∀ b', dynbuf_tolower buf = .ok b' →
        b'.len = buf.len ∧ b'.cap = buf.cap ∧ live b' ∧
        ∀ j c, buf.data[j]? = some c →
          b'.data[j]? = some (if j < buf.len ∧ 65 ≤ c ∧ c ≤ 90 then c + 32 else c)) ∧
      (buf.len ≤ buf.cap → ∃ b', dynbuf_tolower buf = .ok b') ∧
      dynbuf_tolower buf_upper
        = .ok { data := [97, 98, 99, 49, 50, 51, 90, 0], len := 6, cap := 8 } := by
  refine ⟨?_, ?_, rfl⟩
  · intro b' h
    unfold dynbuf_tolower at h
    cases hl : tolower_loop buf.len 0 buf.data with
    | error e => rw [hl] at h; exact absurd h (by simp)
    | ok d =>
      rw [hl] at h
      injection h with h
      subst h
      obtain ⟨-, i2, i3⟩ := tolower_loop_inv _ _ _ _ hl
      refine ⟨rfl, rfl, ⟨by simp only [i2]; exact hlive.block, hlive.len_rng, hlive.cap_rng⟩, ?_⟩
      intro j c hc
      simp only
      rw [i3 j, hc]
      by_cases hj : j < buf.len
      · rw [if_pos (by omega)]
        simp only [Option.map_some', tolower, hj, true_and]
      · rw [if_neg (by omega)]
        simp only [hj, false_and, if_false]
  · intro hle
    have hb := hlive.block
    obtain ⟨d, hd⟩ := tolower_loop_returns buf.len 0 buf.data (by omega)
    exact ⟨{ buf with data := d }, by simp only [dynbuf_tolower, hd]⟩

/-- Witness for C16: folding the buffer `abc`, which has no uppercase letter. -/
theorem dynbuf_tolower_spec_witness :
    ∃ b', dynbuf_tolower buf_abc = .ok b' ∧ b'.len = 3 ∧ b'.cap = 3 ∧
      b'.data[0]? = some 97 := by
  have h := dynbuf_tolower_spec buf_abc ⟨rfl, by decide, by decide⟩
  obtain ⟨b', hb⟩ := h.2.1 (by decide)
  obtain ⟨c1, c2, -, c4⟩ := h.1 b' hb
  exact ⟨b', hb, c1, c2, c4 0 97 rfl⟩

/-- C17: `dynbuf_tolower` is idempotent: applied to a buffer it has returned, it returns
that same buffer (`len`, `cap` and stored bytes); on a live buffer with `len ≤ cap` both
applications return. -/
theorem dynbuf_tolower_idempotent (buf : dynbuf) (hlive : live buf) :
    (∀ b1, dynbuf_tolower buf = .ok b1 → dynbuf_tolower b1 = .ok b1) ∧
      (buf.len ≤ buf.cap →
        ∃ b1, dynbuf_tolower buf = .ok b1 ∧ dynbuf_tolower b1 = .ok b1) := by
  have hfirst : ∀ b1, dynbuf_tolower buf = .ok b1 → dynbuf_tolower b1 = .ok b1 := by
    intro b1 h
    unfold dynbuf_tolower at h
    cases hl : tolower_loop buf.len 0 buf.data with
    | error e => rw [hl] at h; exact absurd h (by simp)
    | ok d =>
      rw [hl] at h
      injection h with h
      subst h
      obtain ⟨i1, i2, i3⟩ := tolower_loop_inv _ _ _ _ hl
      have hfit : 0 + buf.len ≤ d.length := by
        by_cases h0 : buf.len = 0
        · omega
        · have := i1 h0
          omega
      obtain ⟨d2, hd2⟩ := tolower_loop_returns buf.len 0 d hfit
      obtain ⟨-, -, j3⟩ := tolower_loop_inv _ _ _ _ hd2
      have heq : d2 = d := by
        apply List.ext_getElem?
        intro j
        rw [j3 j, i3 j]
        by_cases hj : 0 ≤ j ∧ j < 0 + buf.len
        · rw [if_pos hj, if_pos hj]
          cases buf.data[j]? with
          | none => rfl
          | some c => simp only [Option.map_some', tolower_idem]
        · rw [if_neg hj, if_neg hj]
      subst heq
      simp only [dynbuf_tolower, hd2]
  refine ⟨hfirst, ?_⟩
  intro hle
  have hb := hlive.block
  obtain ⟨d, hd⟩ := tolower_loop_returns buf.len 0 buf.data (by omega)
  have h1 : dynbuf_tolower buf = .ok { buf with data := d } := by
    simp only [dynbuf_tolower, hd]
  exact ⟨_, h1, hfirst _ h1⟩

/-- Witness for C17: folding the buffer `ABC123` twice. -/
theorem dynbuf_tolower_idempotent_witness :
    ∃ b1, dynbuf_tolower buf_upper = .ok b1 ∧ dynbuf_tolower b1 = .ok b1 :=
  (dynbuf_tolower_idempotent buf_upper ⟨rfl, by decide, by decide⟩).2 (by decide)

/-! ## File loading -/

/-- Reading from a stream without a failing offset and with a clear error indicator. -/
theorem fread_good (f : FILE) (n : Nat) (h1 : f.fail_at = none) (h2 : f.error = false) :
    (fread f n).1 = (f.content.drop f.pos).take n ∧
      (fread f n).2.content = f.content ∧
      (fread f n).2.pos = f.pos + ((f.content.drop f.pos).take n).length ∧
      (fread f n).2.fail_at = none ∧ (fread f n).2.error = false := by
  unfold fread
  simp only [h1, h2, Bool.or_false, and_self]

/-- The loop of `dynbuf_readfile` on a file that reads without error: with more iterations
allowed than bytes left, it ends having appended exactly the bytes left. -/
theorem readfile_loop_good (A : Alloc) (fuel : Nat) (f : FILE) (buf : List Nat) (dst : dynbuf)
    (h1 : f.fail_at = none) (h2 : f.error = false) (hpos : f.pos ≤ f.content.length)
    (hfuel : f.content.length - f.pos < fuel) (hlive : live dst) (hle : dst.len ≤ dst.cap)
    (hmem : dst.cap + (f.content.length - f.pos) ≤ A.limit) :
    ∃ b' f', readfile_loop A fuel f buf dst = some (.ok (b', f')) ∧ f'.error = false ∧
      b'.len = dst.len + (f.content.length - f.pos) ∧
      (∀ i, i < dst.len → b'.data[i]? = dst.data[i]?) ∧
      (∀ i, i < f.content.length - f.pos → b'.data[dst.len + i]? = f.content[f.pos + i]?) := by
  induction fuel generalizing f buf dst with
  | zero => exact absurd hfuel (by omega)
  | succ k ih =>
    obtain ⟨r1, r2, r3, r4, r5⟩ := fread_good f 1024 h1 h2
    have hgl : (fread f 1024).1.length = min 1024 (f.content.length - f.pos) := by
      rw [r1, List.length_take, List.length_drop]
    unfold readfile_loop
    simp only
    by_cases h0 : (fread f 1024).1.length = 0
    · rw [if_neg (by simp only [h0, ne_eq, not_true_eq_false, false_and, not_false_eq_true])]
      have hrem : f.content.length - f.pos = 0 := by omega
      refine ⟨dst, (fread f 1024).2, rfl, r5, by omega, fun _ _ => rfl, ?_⟩
      intro i hi
      omega
    · rw [if_pos ⟨h0, r5⟩]
      have hA := limit_bound A
      have hcap := hlive.cap_rng
      simp only [SIZE_MOD] at hcap
      obtain ⟨d, hd⟩ := append_returns A dst
        ((fread f 1024).1 ++ buf.drop (fread f 1024).1.length) (fread f 1024).1.length h0
        hlive hle (by simp only [List.length_append]; omega)
        (by simp only [SIZE_MOD]; omega) (fun _ => by omega)
      rw [hd]
      simp only
      obtain ⟨-, -, -, a1, a2, -, a3, a4, a5⟩ := append_inv A dst d _ _ h0 hlive hd
      have hdcap : d.cap ≤ dst.cap + (fread f 1024).1.length := by
        split at a2 <;> omega
      have hdle : d.len ≤ d.cap := by
        split at a2 <;> omega
      obtain ⟨b', f', e1, e2, e3, e4, e5⟩ := ih (fread f 1024).2
        ((fread f 1024).1 ++ buf.drop (fread f 1024).1.length) d r4 r5
        (by rw [r2, r3, ← r1]; omega) (by rw [r2, r3, ← r1]; omega) a3 hdle
        (by rw [r2, r3, ← r1]; omega)
      rw [r2, r3, ← r1] at e3 e5
      refine ⟨b', f', e1, e2, by omega, ?_, ?_⟩
      · intro i hi
        rw [e4 i (by omega)]
        exact a4 i hi
      · intro i hi
        by_cases hin : i < (fread f 1024).1.length
        · rw [e4 (dst.len + i) (by omega), a5 i hin, List.getElem?_append_left hin, r1,
            List.getElem?_take_of_lt (by omega), List.getElem?_drop]
        · have := e5 (i - (fread f 1024).1.length) (by omega)
          rw [a1] at this
          rw [show dst.len + i = dst.len + (fread f 1024).1.length
              + (i - (fread f 1024).1.length) by omega, this]
          congr 1
          omega

/-- C18: a file of `N` bytes that opens and reads without error, loaded by
`dynbuf_readfile` into a buffer freshly created with any initial capacity, gives `OK`,
`len = N` and the stored bytes in `[0, N)` equal to the bytes of the file in order,
whatever `N` is with respect to the chunk size 1024; this holds for every bound on the
number of iterations above `N`, when the allocator can grant the initial capacity plus
`N` bytes. -/
theorem dynbuf_readfile_roundtrip (A : Alloc) (c0 : Nat) (content : List Nat) (fuel : Nat)
    (hfuel : content.length < fuel) (hmem : c0 + content.length ≤ A.limit) :
    ∃ b0 b', dynbuf_init A c0 = .ok b0 ∧
      dynbuf_readfile A b0 (some (good_file content)) fuel = some (.ok (OK, b')) ∧
      b'.len = content.length ∧
      (∀ i, i < content.length → b'.data[i]? = content[i]?) ∧
      b'.data.take b'.len = content := by
  have hA := limit_bound A
  have hinit : dynbuf_init A c0 = .ok { data := List.replicate c0 0, len := 0, cap := c0 } := by
    simp only [dynbuf_init, xcalloc]
    rw [if_neg (by omega)]
  have hlive : live { data := List.replicate c0 0, len := 0, cap := c0 } :=
    ⟨List.length_replicate _ _, by simp only [SIZE_MOD]; omega, by simp only [SIZE_MOD]; omega⟩
  obtain ⟨b', f', e1, e2, e3, -, e5⟩ := readfile_loop_good A fuel (good_file content)
    (List.replicate 1024 0) { data := List.replicate c0 0, len := 0, cap := c0 } rfl rfl
    (Nat.zero_le _) (by simpa [good_file] using hfuel) hlive (Nat.zero_le _)
    (by simpa [good_file] using hmem)
  simp only [good_file, Nat.sub_zero, Nat.zero_add] at e3 e5
  have hbytes : ∀ i, i < content.length → b'.data[i]? = content[i]? := e5
  refine ⟨_, b', hinit, ?_, e3, hbytes, ?_⟩
  · simp only [dynbuf_readfile, e1, e2]
    rfl
  · apply List.ext_getElem?
    intro i
    by_cases hi : i < content.length
    · rw [List.getElem?_take_of_lt (by omega), hbytes i hi]
    · rw [List.getElem?_eq_none (by simp only [List.length_take]; omega),
        List.getElem?_eq_none (by omega)]

/-- Witness for C18: a file of six bytes loaded into a fresh buffer of capacity 4. -/
theorem dynbuf_readfile_roundtrip_witness :
    ∃ b0 b', dynbuf_init alloc100 4 = .ok b0 ∧
      dynbuf_readfile alloc100 b0 (some (good_file [1, 2, 3, 4, 5, 6])) 7
        = some (.ok (OK, b')) ∧
      b'.len = 6 ∧ b'.data.take b'.len = [1, 2, 3, 4, 5, 6] := by
  obtain ⟨b0, b', h1, h2, h3, -, h5⟩ :=
    dynbuf_readfile_roundtrip alloc100 4 [1, 2, 3, 4, 5, 6] 7 (by decide) (by decide)
  exact ⟨b0, b', h1, h2, h3, h5⟩

/-! ## Appending in pieces -/

/-- C19: for a live buffer with `len ≤ cap` and non-empty byte sequences `x` and `y`,
whenever `dynbuf_append` of `x` then of `y`, and `dynbuf_append` of `x` followed by `y`,
return, the two results have the same `len` and the same stored bytes in `[0, len)`, the
old bytes in `[0, old len)` being kept; all three calls return when the allocator can
grant `cap + |x| + |y|` bytes; the resulting `cap` may differ: with `cap` 4, `len` 0 and
`|x| = |y| = 3` it is 7 in pieces and 10 at once. -/
theorem dynbuf_append_pieces (A : Alloc) (buf : dynbuf) (x y : List Nat) (hlive : live buf)
    (hle : buf.len ≤ buf.cap) (hx : x ≠ []) (hy : y ≠ []) :
    (∀ b1 b2 b3, dynbuf_append A buf (some x) x.length = .ok b1 →
        dynbuf_append A b1 (some y) y.length = .ok b2 →
        dynbuf_append A buf (some (x ++ y)) (x ++ y).length = .ok b3 →
        b2.len = b3.len ∧ b2.len = buf.len + x.length + y.length ∧
        (∀ i, i < b2.len → b2.data[i]? = b3.data[i]?) ∧
        (∀ i, i < buf.len → b2.data[i]? = buf.data[i]?)) ∧
      (buf.cap + x.length + y.length ≤ A.limit →
        ∃ b1 b2 b3, dynbuf_append A buf (some x) x.length = .ok b1 ∧
          dynbuf_append A b1 (some y) y.length = .ok b2 ∧
          dynbuf_append A buf (some (x ++ y)) (x ++ y).length = .ok b3) ∧
      (∃ b1 b2 b3, dynbuf_append alloc100 buf_empty4 (some [1, 2, 3]) 3 = .ok b1 ∧
        dynbuf_append alloc100 b1 (some [4, 5, 6]) 3 = .ok b2 ∧
        dynbuf_append alloc100 buf_empty4 (some [1, 2, 3, 4, 5, 6]) 6 = .ok b3 ∧
        b2.cap = 7 ∧ b3.cap = 10) := by
  have hxl : x.length ≠ 0 := fun h => hx (List.length_eq_zero.mp h)
  have hyl : y.length ≠ 0 := fun h => hy (List.length_eq_zero.mp h)
  have hxy : (x ++ y).length ≠ 0 := by simp only [List.length_append]; omega
  refine ⟨?_, ?_, ?_⟩
  · intro b1 b2 b3 h1 h2 h3
    obtain ⟨-, -, -, a1, -, -, a3, a4, a5⟩ := append_inv A buf b1 x _ hxl hlive h1
    obtain ⟨-, -, -, c1, -, -, -, c4, c5⟩ := append_inv A b1 b2 y _ hyl a3 h2
    obtain ⟨-, -, -, d1, -, -, -, d4, d5⟩ := append_inv A buf b3 (x ++ y) _ hxy hlive h3
    simp only [List.length_append] at d1 d5
    refine ⟨by omega, by omega, ?_, ?_⟩
    · intro i hi
      by_cases hi1 : i < buf.len
      · rw [c4 i (by omega), a4 i hi1, d4 i hi1]
      · by_cases hi2 : i < buf.len + x.length
        · have e1 := a5 (i - buf.len) (by omega)
          have e2 := d5 (i - buf.len) (by omega)
          rw [show buf.len + (i - buf.len) = i by omega] at e1 e2
          rw [c4 i (by omega), e1, e2, List.getElem?_append_left (by omega)]
        · have e1 := c5 (i - b1.len) (by omega)
          have e2 := d5 (i - buf.len) (by omega)
          rw [show b1.len + (i - b1.len) = i by omega] at e1
          rw [show buf.len + (i - buf.len) = i by omega] at e2
          rw [e1, e2, List.getElem?_append_right (by omega)]
          congr 1
          omega
    · intro i hi
      rw [c4 i (by omega), a4 i hi]
  · intro hmem
    have hA := limit_bound A
    obtain ⟨b1, h1⟩ := append_returns A buf x _ hxl hlive hle (le_refl _)
      (by simp only [SIZE_MOD]; omega) (fun _ => by omega)
    obtain ⟨l1, l2, -, l4⟩ := append_keeps A buf b1 _ _ hlive hle h1
    obtain ⟨b2, h2⟩ := append_returns A b1 y _ hyl l1 l2 (le_refl _)
      (by simp only [SIZE_MOD]; omega) (fun _ => by omega)
    obtain ⟨b3, h3⟩ := append_returns A buf (x ++ y) _ hxy hlive hle (le_refl _)
      (by simp only [SIZE_MOD, List.length_append]; omega)
      (fun _ => by simp only [List.length_append]; omega)
    exact ⟨b1, b2, b3, h1, h2, h3⟩
  · exact ⟨{ data := [1, 2, 3, 0], len := 3, cap := 4 },
      { data := [1, 2, 3, 4, 5, 6, 0], len := 6, cap := 7 },
      { data := [1, 2, 3, 4, 5, 6, 0, 0, 0, 0], len := 6, cap := 10 }, rfl, rfl, rfl, rfl, rfl⟩

/-- Witness for C19: `!?` and `.` appended to the buffer `hi` in two calls and in one. -/
theorem dynbuf_append_pieces_witness :
    ∃ b1 b2 b3, dynbuf_append alloc100 buf_hi (some [33, 63]) 2 = .ok b1 ∧
      dynbuf_append alloc100 b1 (some [46]) 1 = .ok b2 ∧
      dynbuf_append alloc100 buf_hi (some [33, 63, 46]) 3 = .ok b3 ∧
      b2.len = b3.len ∧ b2.len = 5 ∧ b2.data[4]? = b3.data[4]? := by
  have h := dynbuf_append_pieces alloc100 buf_hi [33, 63] [46] ⟨rfl, by decide, by decide⟩
    (by decide) (by decide) (by decide)
  obtain ⟨b1, b2, b3, h1, h2, h3⟩ := h.2.1 (by decide)
  obtain ⟨c1, c2, c3, -⟩ := h.1 b1 b2 b3 h1 h2 h3
  exact ⟨b1, b2, b3, h1, h2, h3, c1, c2, c3 4 (by rw [c2]; decide)⟩

/-! ## Slack under additive growth -/

/-- A returning `dynbuf_append` does not increase the unused capacity `cap - len`. -/
theorem append_slack (A : Alloc) (buf b' : dynbuf) (str : Option (List Nat)) (n : Nat)
    (hlive : live buf) (h : dynbuf_append A buf str n = .ok b') :
    b'.cap + buf.len ≤ buf.cap + b'.len := by
  cases str with
  | none =>
    have h2 : dynbuf_append A buf none n = .ok buf := rfl
    rw [h2] at h
    injection h with h
    subst h
    omega
  | some s =>
    by_cases hn : n = 0
    · subst hn
      have h2 : dynbuf_append A buf (some s) 0 = .ok buf := rfl
      rw [h2] at h
      injection h with h
      subst h
      omega
    · obtain ⟨-, -, -, hl, hc, -, -, -, -⟩ := append_inv A buf b' s n hn hlive h
      split at hc <;> omega

/-- What a returning adding call keeps: a live buffer with `len ≤ cap`, no more unused
capacity than before, and a `cap` raised by at most the bytes it was asked to store. -/
theorem run_adds (A : Alloc) (buf b' : dynbuf) (op : Op) (hop : adds op = true)
    (hlive : live buf) (hle : buf.len ≤ buf.cap) (h : run A buf op = .ok b') :
    live b' ∧ b'.len ≤ b'.cap ∧ b'.cap + buf.len ≤ buf.cap + b'.len ∧
      ∀ n, demand op = some n → b'.cap ≤ buf.cap + n := by
  have hgen : ∀ str n, dynbuf_append A buf str n = .ok b' →
      live b' ∧ b'.len ≤ b'.cap ∧ b'.cap + buf.len ≤ buf.cap + b'.len ∧ b'.cap ≤ buf.cap + n := by
    intro str n ha
    obtain ⟨k1, k2, -, k4⟩ := append_keeps A buf b' str n hlive hle ha
    exact ⟨k1, k2, append_slack A buf b' str n hlive ha, k4⟩
  have hsame : b' = buf →
      live b' ∧ b'.len ≤ b'.cap ∧ b'.cap + buf.len ≤ buf.cap + b'.len ∧
        ∀ n, demand op = some n → b'.cap ≤ buf.cap + n := by
    intro he
    subst he
    exact ⟨hlive, hle, le_refl _, fun n _ => by omega⟩
  cases op with
  | clear => exact absurd hop (by simp [adds])
  | soft_clear => exact absurd hop (by simp [adds])
  | reserve size => exact absurd hop (by simp [adds])
  | resize new_size => exact absurd hop (by simp [adds])
  | append_strings count args => exact absurd hop (by simp [adds])
  | append_fmt out => exact absurd hop (by simp [adds])
  | tolower => exact absurd hop (by simp [adds])
  | append str len =>
    obtain ⟨g1, g2, g3, g4⟩ := hgen str len h
    refine ⟨g1, g2, g3, ?_⟩
    intro n hd
    cases str with
    | none =>
      have h2 : run A buf (.append none len) = .ok buf := rfl
      rw [h2] at h
      injection h with h
      subst h
      omega
    | some s =>
      simp only [demand] at hd
      split at hd
      · have hn := Option.some.inj hd
        omega
      · exact absurd hd (by simp)
  | append_char c =>
    simp only [run, append_char_eq] at h
    obtain ⟨g1, g2, g3, g4⟩ := hgen _ 1 h
    refine ⟨g1, g2, g3, ?_⟩
    intro n hd
    simp only [demand] at hd
    injection hd with hd
    omega
  | terminate =>
    simp only [run, dynbuf_terminate, append_char_eq] at h
    obtain ⟨g1, g2, g3, g4⟩ := hgen _ 1 h
    refine ⟨g1, g2, g3, ?_⟩
    intro n hd
    simp only [demand] at hd
    injection hd with hd
    omega
  | append_string str =>
    cases str with
    | none =>
      apply hsame
      have h2 : run A buf (.append_string none) = .ok buf := rfl
      rw [h2] at h
      injection h with h
      exact h.symm
    | some s =>
      simp only [run, dynbuf_append_string] at h
      cases hs : strlen s with
      | none => rw [hs] at h; exact absurd h (by simp)
      | some l =>
        rw [hs] at h
        obtain ⟨g1, g2, g3, g4⟩ := hgen _ l h
        refine ⟨g1, g2, g3, ?_⟩
        intro n hd
        simp only [demand, hs] at hd
        injection hd with hd
        omega

/-- A call with a demand is ready when the allocator can grant `cap` plus the demand. -/
theorem ready_of_demand (A : Alloc) (buf : dynbuf) (op : Op) (n : Nat)
    (hd : demand op = some n) (hmem : buf.cap + n ≤ A.limit) : ready A buf op := by
  cases op with
  | clear => exact absurd hd (by simp [demand])
  | soft_clear => exact absurd hd (by simp [demand])
  | reserve size => exact absurd hd (by simp [demand])
  | resize new_size => exact absurd hd (by simp [demand])
  | append_strings count args => exact absurd hd (by simp [demand])
  | append_fmt out => exact absurd hd (by simp [demand])
  | tolower => exact absurd hd (by simp [demand])
  | append str len =>
    intro s hs
    subst hs
    simp only [demand] at hd
    split at hd
    · injection hd with hd
      subst hd
      exact ⟨by assumption, hmem⟩
    · exact absurd hd (by simp)
  | append_char c =>
    simp only [demand] at hd
    injection hd with hd
    subst hd
    exact hmem
  | terminate =>
    simp only [demand] at hd
    injection hd with hd
    subst hd
    exact hmem
  | append_string str =>
    intro s hs
    subst hs
    simp only [demand] at hd
    exact ⟨n, hd, hmem⟩

theorem demand_adds (op : Op) (n : Nat) (hd : demand op = some n) : adds op = true := by
  cases op <;> first | rfl | exact absurd hd (by simp [demand])

theorem runs_slack (A : Alloc) (c0 : Nat) (ops : List Op) (buf b : dynbuf)
    (hops : ∀ op, op ∈ ops → adds op = true) (hlive : live buf) (hle : buf.len ≤ buf.cap)
    (hsl : buf.cap ≤ c0 + buf.len) (h : runs A buf ops = .ok b) :
    b.len ≤ b.cap ∧ b.cap ≤ c0 + b.len := by
  induction ops generalizing buf with
  | nil =>
    unfold runs at h
    injection h with h
    subst h
    exact ⟨hle, hsl⟩
  | cons op rest ih =>
    unfold runs at h
    cases hr : run A buf op with
    | error e => rw [hr] at h; exact absurd h (by simp)
    | ok b1 =>
      rw [hr] at h
      obtain ⟨g1, g2, g3, -⟩ := run_adds A buf b1 op (hops op (List.mem_cons_self _ _))
        hlive hle hr
      exact ih b1 (fun o ho => hops o (List.mem_cons_of_mem _ ho)) g1 g2 (by omega) h

theorem runs_returns (A : Alloc) (ops : List Op) (buf : dynbuf) (t : Nat)
    (hd : demands ops = some t) (hlive : live buf) (hle : buf.len ≤ buf.cap)
    (hmem : buf.cap + t ≤ A.limit) : ∃ b, runs A buf ops = .ok b := by
  induction ops generalizing buf t with
  | nil => exact ⟨buf, rfl⟩
  | cons op rest ih =>
    unfold demands at hd
    cases h1 : demand op with
    | none => rw [h1] at hd; exact absurd hd (by simp)
    | some n =>
      cases h2 : demands rest with
      | none => rw [h1, h2] at hd; exact absurd hd (by simp)
      | some t' =>
        rw [h1, h2] at hd
        injection hd with hd
        obtain ⟨b1, hb1⟩ := run_returns A buf op hlive hle
          (ready_of_demand A buf op n h1 (by omega))
        obtain ⟨g1, g2, -, g4⟩ := run_adds A buf b1 op (demand_adds op n h1) hlive hle hb1
        have := g4 n h1
        obtain ⟨b, hb⟩ := ih b1 t' h2 g1 g2 (by omega)
        refine ⟨b, ?_⟩
        unfold runs
        rw [hb1]
        exact hb

/-- C20: every buffer obtained from `dynbuf_init(buf, c0)` by a finite sequence of
`dynbuf_append`, `dynbuf_append_char`, `dynbuf_append_string` and `dynbuf_terminate` calls
has `len ≤ cap ≤ c0 + len`, so that the unused capacity never exceeds `c0`; and the
sequence does return when its arguments are valid and the allocator can grant `c0` plus
the bytes the calls store. -/
theorem slack_bounded (A : Alloc) (c0 : Nat) (ops : List Op)
    (hops : ∀ op, op ∈ ops → adds op = true) :
    (∀ b0 b, dynbuf_init A c0 = .ok b0 → runs A b0 ops = .ok b →
        b.len ≤ b.cap ∧ b.cap ≤ c0 + b.len ∧ b.cap - b.len ≤ c0) ∧
      (∀ t, demands ops = some t → c0 + t ≤ A.limit →
        ∃ b0 b, dynbuf_init A c0 = .ok b0 ∧ runs A b0 ops = .ok b) := by
  have hA := limit_bound A
  have hinit : ∀ b0, dynbuf_init A c0 = .ok b0 →
      b0 = { data := List.replicate c0 0, len := 0, cap := c0 } ∧ c0 ≤ A.limit := by
    intro b0 h
    by_cases hc : A.limit < c0
    · simp only [dynbuf_init, xcalloc, hc, if_true] at h
      exact absurd h (by simp)
    · simp only [dynbuf_init, xcalloc, hc, if_false] at h
      injection h with h
      exact ⟨h.symm, by omega⟩
  have hlive : c0 ≤ A.limit → live { data := List.replicate c0 0, len := 0, cap := c0 } :=
    fun hc => ⟨List.length_replicate _ _, by simp only [SIZE_MOD]; omega,
      by simp only [SIZE_MOD]; omega⟩
  constructor
  · intro b0 b h0 h
    obtain ⟨he, hc⟩ := hinit b0 h0
    subst he
    obtain ⟨r1, r2⟩ := runs_slack A c0 ops _ b hops (hlive hc) (Nat.zero_le _)
      (le_refl _) h
    exact ⟨r1, r2, by omega⟩
  · intro t hd hmem
    have hc : c0 ≤ A.limit := by omega
    have h0 : dynbuf_init A c0 = .ok { data := List.replicate c0 0, len := 0, cap := c0 } := by
      simp only [dynbuf_init, xcalloc]
      rw [if_neg (by omega)]
    obtain ⟨b, hb⟩ := runs_returns A ops _ t hd (hlive hc) (Nat.zero_le _) hmem
    exact ⟨_, b, h0, hb⟩

/-- Witness for C20: from `dynbuf_init(buf, 4)`, the calls append `hello`, terminate,
append_char `!` and append_string `"world"`. -/
theorem slack_bounded_witness :
    ∃ b0 b, dynbuf_init alloc100 4 = .ok b0 ∧
      runs alloc100 b0 [.append (some str_hello) 5, .terminate, .append_char 33,
        .append_string (some str_world)] = .ok b ∧
      b.len ≤ b.cap ∧ b.cap ≤ 4 + b.len := by
  have h := slack_bounded alloc100 4 [.append (some str_hello) 5, .terminate, .append_char 33,
    .append_string (some str_world)] (by decide)
  obtain ⟨b0, b, h0, hb⟩ := h.2 12 rfl (by decide)
  obtain ⟨c1, c2, -⟩ := h.1 b0 b h0 hb
  exact ⟨b0, b, h0, hb, c1, c2⟩

end Dynbuf
